import Mathlib

/-!
Verification of the teo-media WebGL core against its specification.

This file gives a shallow embedding of the WebGL-layer modules of the
repository (src/src/lib/webgl) and proves or refutes the spec's claims
about them:

* `texture-manager-new.ts` — the LRU texture cache (`TextureManager`);
* `uniform-manager.ts`     — uniform-location caching (`UniformManager`);
* `webgl-renderer.ts`      — the renderer / frame scheduler (`WebGLRenderer`);
* `fbo.ts`                 — the off-screen render target (`FBO`);
* `shader-utils.ts`        — shader compilation and program linking.

Browser/GPU facts that the code relies on are made explicit as parameters:
image decoding is modelled as an `Option Image` outcome handed to the load
call, the GL object heap as plain resource counters, and the wall-clock
`Date` used for `lastAccessed` as a strictly increasing logical counter
(each `new Date()` occurrence reads and bumps it).
-/

/-- An `HTMLImageElement` as far as the texture manager observes it:
a reference identity (`id`), its `src` URL and pixel dimensions. -/
structure Image where
  id : Nat
  src : String
  width : Nat
  height : Nat
deriving DecidableEq

/-- `CachedTexture` from texture-manager-new.ts.  The `image` field is kept
as the reference identity `imageId`; the opaque `WebGLTexture` handle is
represented by the slot that owns it (`textures[slot]`). -/
structure CachedTexture where
  url : String
  imageId : Nat
  slot : Nat
  lastAccessed : Nat
  accessCount : Nat
  size : Nat
deriving DecidableEq

/-- The `TextureManager` state: `textures` records which of the fixed slots
currently holds a `WebGLTexture` (`true`) versus `null` (`false`); `cache`
is the `Map<string, CachedTexture>` in insertion order (JS `Map` iteration
order); `clock` is the logical `Date` counter. -/
structure TextureManager where
  textures : List Bool
  cache : List CachedTexture
  currentSize : Int
  maxMemoryUsage : Int
  clock : Nat
deriving DecidableEq

namespace TextureManager

/-- The hard-coded default budget in the source: `200 * 1024 * 1024`. -/
def defaultMaxMemoryUsage : Int := 200 * 1024 * 1024

/-- The constructor `new TextureManager(gl, maxSlots = 32)`, generalized
over the (source-constant) memory budget so the spec's unit scenarios can
be stated. -/
def init (budget : Int) (maxSlots : Nat := 32) : TextureManager :=
  { textures := List.replicate maxSlots false
    cache := []
    currentSize := 0
    maxMemoryUsage := budget
    clock := 0 }

/-- `this.cache.get(url)` — JS `Map` lookup (keys are unique, and every
entry is stored under its own `url` field). -/
def mapGet (cache : List CachedTexture) (url : String) : Option CachedTexture :=
  cache.find? (fun e => e.url == url)

/-- `this.cache.set(url, entry)` — JS `Map.set`: replaces the entry under
an existing key in place (keeping its position), otherwise appends. -/
def mapSet (cache : List CachedTexture) (e : CachedTexture) : List CachedTexture :=
  match cache with
  | [] => [e]
  | c :: cs => if c.url == e.url then e :: cs else c :: mapSet cs e

/-- In-place mutation of the entry stored under `url` (the cache-hit path
mutates the found `CachedTexture` object). -/
def mapUpdate (cache : List CachedTexture) (url : String)
    (f : CachedTexture → CachedTexture) : List CachedTexture :=
  match cache with
  | [] => []
  | c :: cs => if c.url == url then f c :: cs else c :: mapUpdate cs url f

/-- In-place mutation of the first entry whose `image` reference matches
(the `getTextureForImage` hit path). -/
def mapUpdateImage (cache : List CachedTexture) (imgId : Nat)
    (f : CachedTexture → CachedTexture) : List CachedTexture :=
  match cache with
  | [] => []
  | c :: cs => if c.imageId == imgId then f c :: cs else c :: mapUpdateImage cs imgId f

/-- First cache entry whose `image` reference matches, in map order. -/
def findByImage (cache : List CachedTexture) (imgId : Nat) : Option CachedTexture :=
  cache.find? (fun e => e.imageId == imgId)

/-- The `releaseTexture` scan: first cache entry occupying `slot`. -/
def findBySlot (cache : List CachedTexture) (slot : Nat) : Option CachedTexture :=
  cache.find? (fun e => e.slot == slot)

/-- The `releaseTexture` scan's removal: delete the first entry occupying
`slot` (the JS loop breaks after the first match). -/
def removeFirstSlot (cache : List CachedTexture) (slot : Nat) : List CachedTexture :=
  match cache with
  | [] => []
  | c :: cs => if c.slot == slot then cs else c :: removeFirstSlot cs slot

/-- `releaseTexture(slot)`: bounds check, delete the GL texture held in the
slot, then remove the first cache entry referencing that slot and subtract
its size. -/
def releaseTexture (tm : TextureManager) (slot : Nat) : TextureManager :=
  if slot < tm.textures.length then
    let textures := if tm.textures.getD slot false then tm.textures.set slot false
                    else tm.textures
    match findBySlot tm.cache slot with
    | none => { tm with textures := textures }
    | some e =>
        { tm with textures := textures
                  cache := removeFirstSlot tm.cache slot
                  currentSize := tm.currentSize - (e.size : Int) }
  else tm

/-- The scan of `evictLRU`: fold the map in iteration order, keeping the
entry with the strictly smallest `lastAccessed` (the first such entry wins
ties, exactly as the `<` comparison in the loop does). -/
def findOldestFrom (o : CachedTexture) : List CachedTexture → CachedTexture
  | [] => o
  | c :: cs => findOldestFrom (if c.lastAccessed < o.lastAccessed then c else o) cs

/-- `evictLRU`'s search for the least-recently-used entry. -/
def findOldest : List CachedTexture → Option CachedTexture
  | [] => none
  | c :: cs => some (findOldestFrom c cs)

/-- `evictLRU()`: release the slot of the least-recently-used entry. -/
def evictLRU (tm : TextureManager) : TextureManager :=
  match findOldest tm.cache with
  | some o => releaseTexture tm o.slot
  | none => tm

/-- The `while (currentSize > maxMemoryUsage && cache.size > 0) evictLRU()`
loop of `enforceMemoryLimits`, given enough fuel.  On every state reachable
through the public operations each `evictLRU` removes exactly one entry, so
`cache.length` fuel runs the loop to completion. -/
def enforceLoop : Nat → TextureManager → TextureManager
  | 0, tm => tm
  | fuel + 1, tm =>
      if tm.maxMemoryUsage < tm.currentSize && !tm.cache.isEmpty then
        enforceLoop fuel (evictLRU tm)
      else tm

/-- `enforceMemoryLimits()`. -/
def enforceMemoryLimits (tm : TextureManager) : TextureManager :=
  enforceLoop tm.cache.length tm

/-- `estimateImageSize(image)`: `width * height * 4 + 2048`. -/
def estimateImageSize (img : Image) : Nat :=
  img.width * img.height * 4 + 2048

/-- `createTextureAtSlot(url, image, slot)`: upload the texture into `slot`,
insert the cache entry stamped with the current clock, add its size, then
enforce the memory limit. -/
def createTextureAtSlot (tm : TextureManager) (url : String) (img : Image)
    (slot : Nat) : TextureManager × Nat :=
  let textures := if tm.textures.getD slot false then tm.textures
                  else tm.textures.set slot true
  let size := estimateImageSize img
  let e : CachedTexture :=
    { url := url, imageId := img.id, slot := slot,
      lastAccessed := tm.clock, accessCount := 1, size := size }
  let tm :=
    { tm with textures := textures
              cache := mapSet tm.cache e
              currentSize := tm.currentSize + (size : Int)
              clock := tm.clock + 1 }
  (enforceMemoryLimits tm, slot)

/-- `findAvailableSlot()`: index of the first `null` slot, if any. -/
def findAvailableSlot (tm : TextureManager) : Option Nat :=
  tm.textures.findIdx? (fun b => !b)

/-- `createTextureFromImage(url, image)`: take a free slot, or evict once
and retry; `none` models the thrown `No available texture slots`. -/
def createTextureFromImage (tm : TextureManager) (url : String) (img : Image) :
    TextureManager × Option Nat :=
  match findAvailableSlot tm with
  | some slot =>
      let r := createTextureAtSlot tm url img slot
      (r.1, some r.2)
  | none =>
      let tm := evictLRU tm
      match findAvailableSlot tm with
      | some slot =>
          let r := createTextureAtSlot tm url img slot
          (r.1, some r.2)
      | none => (tm, none)

/-- `getTextureForUrl(url)`.  The browser's image decode is the only
external step; its outcome is the `load` argument (`none` = the image
failed to load and the error is rethrown, leaving the state unchanged).
Returns the slot of the texture on success. -/
def getTextureForUrl (tm : TextureManager) (url : String) (load : Option Image) :
    TextureManager × Option Nat :=
  match mapGet tm.cache url with
  | some c =>
      ({ tm with
          cache := mapUpdate tm.cache url
            (fun e => { e with lastAccessed := tm.clock, accessCount := e.accessCount + 1 })
          clock := tm.clock + 1 }, some c.slot)
  | none =>
      match load with
      | none => (tm, none)
      | some img => createTextureFromImage tm url img

/-- `getTextureForImage(image)`: scan the cache for the same image
reference, else create a texture under `image.src`. -/
def getTextureForImage (tm : TextureManager) (img : Image) :
    TextureManager × Option Nat :=
  match findByImage tm.cache img.id with
  | some c =>
      ({ tm with
          cache := mapUpdateImage tm.cache img.id
            (fun e => { e with lastAccessed := tm.clock, accessCount := e.accessCount + 1 })
          clock := tm.clock + 1 }, some c.slot)
  | none => createTextureFromImage tm img.src img

/-- `createPlaceholder(slot, …)`: bounds check (throw on failure, modelled
by the `false` result), release the slot, then install a fresh texture.
The solid-color pixel upload has no further observable cache effect. -/
def createPlaceholder (tm : TextureManager) (slot : Nat) : TextureManager × Bool :=
  if slot < tm.textures.length then
    let tm := releaseTexture tm slot
    ({ tm with textures := tm.textures.set slot true }, true)
  else (tm, false)

/-- `cleanup()`: release every slot, then clear the cache and zero the
counter. -/
def cleanup (tm : TextureManager) : TextureManager :=
  let tm := (List.range tm.textures.length).foldl (fun t i => releaseTexture t i) tm
  { tm with cache := [], currentSize := 0 }

/-- `getStats().memoryUsage` (the spec's `stats().approxBytes`). -/
def memoryUsage (tm : TextureManager) : Int := tm.currentSize

/-- The true total of the `size` fields of the entries in the cache map. -/
def sumSizes (cache : List CachedTexture) : Int :=
  (cache.map (fun e => (e.size : Int))).sum

/-- The resident set, as the list of cached source keys in map order. -/
def residentUrls (tm : TextureManager) : List String :=
  tm.cache.map (fun e => e.url)

end TextureManager

/-! ## uniform-manager.ts -/

/-- A value written to a uniform location by `uniform1f` / `uniform2f` /
`uniform1i`.  JS numbers are modelled as rationals. -/
inductive UniformValue where
  | float (v : Rat)
  | vec2 (x y : Rat)
  | int (v : Int)
deriving DecidableEq

/-- Association-list lookup used for the JS `Map`s below. -/
def alistGet {α : Type} (l : List (String × α)) (name : String) : Option α :=
  (l.find? (fun p => p.1 == name)).map (fun p => p.2)

/-- Update-or-append on an association list keyed by `Nat`
(the GPU's per-location uniform store). -/
def gpuSet (gpu : List (Nat × UniformValue)) (loc : Nat) (v : UniformValue) :
    List (Nat × UniformValue) :=
  match gpu with
  | [] => [(loc, v)]
  | p :: ps => if p.1 == loc then (loc, v) :: ps else p :: gpuSet ps loc v

/-- Lookup in the GPU uniform store. -/
def gpuGet (gpu : List (Nat × UniformValue)) (loc : Nat) : Option UniformValue :=
  (gpu.find? (fun p => p.1 == loc)).map (fun p => p.2)

/-- `UniformManager`: `prog` is the linked program's uniform table — the
environment fact `gl.getUniformLocation(program, name)` returns `some loc`
for uniforms present in the program and `none` (null) otherwise;
`locations` is the manager's `Map<string, WebGLUniformLocation | null>`
in insertion order; `gpu` is the program's uniform state written through
`uniform1f`/`uniform2f`/`uniform1i`. -/
structure UniformManager where
  prog : List (String × Nat)
  locations : List (String × Option Nat)
  gpu : List (Nat × UniformValue)
deriving DecidableEq

namespace UniformManager

/-- The constructor: an empty location cache over a given program. -/
def make (prog : List (String × Nat)) : UniformManager :=
  { prog := prog, locations := [], gpu := [] }

/-- `getLocation(name)`: return the cached location if the map has the
key (`?? null` collapses a cached null to null), otherwise query the
program, cache the result (even when null), and return it. -/
def getLocation (um : UniformManager) (name : String) :
    UniformManager × Option Nat :=
  match alistGet um.locations name with
  | some v => (um, v)
  | none =>
      let loc := alistGet um.prog name
      ({ um with locations := um.locations ++ [(name, loc)] }, loc)

/-- `has(name)`: `this.locations.has(name)`. -/
def has (um : UniformManager) (name : String) : Bool :=
  (alistGet um.locations name).isSome

/-- `setFloat(name, value)`: resolve the location (caching it) and write
the value if the location is not null.  `useProgram` only selects the
manager's own program and has no further modelled effect. -/
def setFloat (um : UniformManager) (name : String) (v : Rat) : UniformManager :=
  let r := um.getLocation name
  match r.2 with
  | some l => { r.1 with gpu := gpuSet r.1.gpu l (UniformValue.float v) }
  | none => r.1

/-- `setVec2(name, x, y)`. -/
def setVec2 (um : UniformManager) (name : String) (x y : Rat) : UniformManager :=
  let r := um.getLocation name
  match r.2 with
  | some l => { r.1 with gpu := gpuSet r.1.gpu l (UniformValue.vec2 x y) }
  | none => r.1

/-- `setInt(name, value)`. -/
def setInt (um : UniformManager) (name : String) (v : Int) : UniformManager :=
  let r := um.getLocation name
  match r.2 with
  | some l => { r.1 with gpu := gpuSet r.1.gpu l (UniformValue.int v) }
  | none => r.1

end UniformManager

/-- The operations a caller can perform on a `UniformManager` (each of the
public methods that performs a location lookup). -/
inductive UOp where
  | getLoc (name : String)
  | setF (name : String) (v : Rat)
  | setV2 (name : String) (x y : Rat)
  | setI (name : String) (v : Int)
deriving DecidableEq

/-- The uniform name an operation touches. -/
def UOp.name : UOp → String
  | UOp.getLoc n => n
  | UOp.setF n _ => n
  | UOp.setV2 n _ _ => n
  | UOp.setI n _ => n

/-- Apply one operation. -/
def UOp.apply (um : UniformManager) : UOp → UniformManager
  | UOp.getLoc n => (um.getLocation n).1
  | UOp.setF n v => um.setFloat n v
  | UOp.setV2 n x y => um.setVec2 n x y
  | UOp.setI n v => um.setInt n v

/-- Run a sequence of operations. -/
def runUOps (um : UniformManager) (ops : List UOp) : UniformManager :=
  ops.foldl UOp.apply um

/-! ## webgl-renderer.ts -/

/-- A `RenderPass` as the renderer observes it: its uniform manager and
the source bindings fixed at construction (texture object identities). -/
structure RPass where
  uniforms : UniformManager
  sources : List Nat
deriving DecidableEq

/-- The `WebGLRenderer` state.  `needsRender` is the dirty flag;
`pendingCallbacks` counts `requestAnimationFrame` callbacks scheduled and
not yet run; `draws` counts executed draw sequences (frames actually
rendered), the observable the coalescing claims speak about. -/
structure WebGLRenderer where
  passes : List RPass
  textures : Option TextureManager
  initialized : Bool
  needsRender : Bool
  pendingCallbacks : Nat
  draws : Nat
deriving DecidableEq

namespace WebGLRenderer

/-- The private `render` arrow function: return unless initialized and
dirty (the `gl` null-check cannot fire on a constructed renderer, whose
constructor throws when WebGL2 is unavailable); otherwise clear, draw
every pass (one draw sequence) and reset the dirty flag. -/
def render (r : WebGLRenderer) : WebGLRenderer :=
  if r.initialized && r.needsRender then
    { r with draws := r.draws + 1, needsRender := false }
  else r

/-- `requestRender()`: when the dirty flag is clear, set it and schedule
exactly one `requestAnimationFrame` callback; otherwise do nothing. -/
def requestRender (r : WebGLRenderer) : WebGLRenderer :=
  if r.needsRender then r
  else { r with needsRender := true, pendingCallbacks := r.pendingCallbacks + 1 }

/-- The body of the scheduled callback:
`() => { this.render(); this.needsRender = false; }`. -/
def runCallback (r : WebGLRenderer) : WebGLRenderer :=
  { render r with needsRender := false }

/-- Run `n` scheduled callbacks in order. -/
def runCallbacks : Nat → WebGLRenderer → WebGLRenderer
  | 0, r => r
  | n + 1, r => runCallbacks n (runCallback r)

/-- One scheduler tick (`requestAnimationFrame` firing): every callback
scheduled before the tick runs once, leaving none pending. -/
def tick (r : WebGLRenderer) : WebGLRenderer :=
  { runCallbacks r.pendingCallbacks r with pendingCallbacks := 0 }

/-- `setMixValue(value)`: for every pass whose uniform map has
`u_mixRatio`, write the value (unclamped, exactly as the source does),
then request a render. -/
def setMixValue (r : WebGLRenderer) (v : Rat) : WebGLRenderer :=
  let passes := r.passes.map (fun p =>
    if p.uniforms.has "u_mixRatio" then
      { p with uniforms := p.uniforms.setFloat "u_mixRatio" v }
    else p)
  requestRender { r with passes := passes }

/-- `updateTexture(index, url)`: no-op without a texture manager; else
resolve the url through `getTextureForUrl` (the decode outcome is `load`)
and request a render on success.  The returned flag is promise resolution:
`false` models the rejected promise when the load throws.  The `index`
parameter is unused by the source. -/
def updateTexture (r : WebGLRenderer) (_index : Nat) (url : String)
    (load : Option Image) : WebGLRenderer × Bool :=
  match r.textures with
  | none => (r, true)
  | some tm =>
      let res := TextureManager.getTextureForUrl tm url load
      match res.2 with
      | none => ({ r with textures := some res.1 }, false)
      | some _ => (requestRender { r with textures := some res.1 }, true)

end WebGLRenderer

/-- A dirtying mutation arriving between two scheduler ticks: a
`setMixValue` call or a bare render request (`requestFrame`). -/
inductive Mut where
  | mix (v : Rat)
  | reqFrame
deriving DecidableEq

/-- Apply one mutation. -/
def Mut.apply (r : WebGLRenderer) : Mut → WebGLRenderer
  | Mut.mix v => r.setMixValue v
  | Mut.reqFrame => r.requestRender

/-- Apply a burst of mutations in order. -/
def runMuts (r : WebGLRenderer) (muts : List Mut) : WebGLRenderer :=
  muts.foldl Mut.apply r

/-! ## fbo.ts -/

/-- The GL object heap as the FBO constructor touches it: counts of live
framebuffers and textures, and the number of `console.warn` emissions. -/
structure GLState where
  framebuffersAlive : Nat
  texturesAlive : Nat
  warnings : Nat
deriving DecidableEq

/-- The `FBO` object: its two GPU resources and dimensions. -/
structure FBO where
  width : Int
  height : Int
deriving DecidableEq

/-- Environment fact: `checkFramebufferStatus` reports `FRAMEBUFFER_COMPLETE`
for this RGBA8 color attachment exactly when both dimensions are positive
(a zero-sized attachment is incomplete). -/
def framebufferComplete (width height : Int) : Bool :=
  (0 < width) && (0 < height)

/-- The `FBO` constructor: allocate a framebuffer and a texture, attach,
check completeness and — on incompleteness — only `console.warn`; the
constructor always returns the object and never releases anything. -/
def FBO.create (gl : GLState) (width height : Int) : GLState × FBO :=
  let gl := { gl with framebuffersAlive := gl.framebuffersAlive + 1 }
  let gl := { gl with texturesAlive := gl.texturesAlive + 1 }
  let gl := if framebufferComplete width height then gl
            else { gl with warnings := gl.warnings + 1 }
  (gl, { width := width, height := height })

/-! ## shader-utils.ts -/

/-- Shader stage (`gl.VERTEX_SHADER` / `gl.FRAGMENT_SHADER`). -/
inductive Stage where
  | vertex
  | fragment
deriving DecidableEq

/-- Environment facts for compilation: which sources compile at which
stage, and which pairs link. -/
structure GLSLEnv where
  compiles : Stage → String → Bool
  links : String → String → Bool

/-- Live GL shader/program objects. -/
structure GLObjs where
  shadersAlive : Nat
  programsAlive : Nat
deriving DecidableEq

/-- `compileShader(gl, source, type)`: create the shader object; on compile
failure delete it and throw (`none`). -/
def compileShader (env : GLSLEnv) (gl : GLObjs) (source : String) (stage : Stage) :
    GLObjs × Bool :=
  let gl := { gl with shadersAlive := gl.shadersAlive + 1 }
  if env.compiles stage source then (gl, true)
  else ({ gl with shadersAlive := gl.shadersAlive - 1 }, false)

/-- `createProgram(gl, vertexSource, fragmentSource)`: compile both stages,
link, and on success delete the (attached) shader objects; a thrown error
is the `false` result.  The deletions on analysis paths are exactly the
source's. -/
def createProgram (env : GLSLEnv) (gl : GLObjs) (vs fs : String) :
    GLObjs × Bool :=
  let rv := compileShader env gl vs Stage.vertex
  if rv.2 then
    let rf := compileShader env rv.1 fs Stage.fragment
    if rf.2 then
      let gl := { rf.1 with programsAlive := rf.1.programsAlive + 1 }
      if env.links vs fs then
        ({ gl with shadersAlive := gl.shadersAlive - 2 }, true)
      else
        ({ gl with programsAlive := gl.programsAlive - 1 }, false)
    else (rf.1, false)
  else (rv.1, false)

/-! ## Trace operations and invariants -/

namespace TextureManager

/-- A sequence of `getOrLoad` (`getTextureForUrl`) calls: each element is
the requested url together with the decode outcome the browser produces
for it. -/
def runGetOrLoad (tm : TextureManager) : List (String × Option Image) → TextureManager
  | [] => tm
  | (url, load) :: rest => runGetOrLoad (getTextureForUrl tm url load).1 rest

/-- The public `TextureManager` operations a caller can perform. -/
inductive TMOp where
  | loadUrl (url : String) (load : Option Image)
  | loadImage (img : Image)
  | placeholder (slot : Nat)
  | release (slot : Nat)
  | clean
deriving DecidableEq

/-- Apply one public operation (return values dropped). -/
def TMOp.apply (tm : TextureManager) : TMOp → TextureManager
  | TMOp.loadUrl url load => (tm.getTextureForUrl url load).1
  | TMOp.loadImage img => (tm.getTextureForImage img).1
  | TMOp.placeholder slot => (tm.createPlaceholder slot).1
  | TMOp.release slot => tm.releaseTexture slot
  | TMOp.clean => tm.cleanup

/-- Run a sequence of public operations. -/
def runTMOps (tm : TextureManager) (ops : List TMOp) : TextureManager :=
  ops.foldl TMOp.apply tm

/-- An operation is benign when it is not a `getTextureForImage` call that
re-registers a fresh image object under an already-cached URL (the one
path on which `cache.set` overwrites an entry without its size being
subtracted from the counter). -/
def TMOp.ok (tm : TextureManager) : TMOp → Bool
  | TMOp.loadImage img =>
      (findByImage tm.cache img.id).isSome || (mapGet tm.cache img.src).isNone
  | _ => true

/-- All operations of the trace are benign, each judged at the state it
runs in. -/
def runOkB (tm : TextureManager) : List TMOp → Bool
  | [] => true
  | op :: ops => TMOp.ok tm op && runOkB (op.apply tm) ops

/-- Well-formedness of a `TextureManager` state, as established by the
constructor and preserved by the public operations (see the theorems):
the byte counter matches the cache, the budget is respected, cached slots
are in range, occupied, and mutually distinct, keys are unique, and the
`lastAccessed` stamps are distinct and below the clock. -/
structure WF (tm : TextureManager) : Prop where
  size_eq : tm.currentSize = sumSizes tm.cache
  budget_nonneg : 0 ≤ tm.maxMemoryUsage
  budget_ok : tm.currentSize ≤ tm.maxMemoryUsage
  slots_lt : ∀ e ∈ tm.cache, e.slot < tm.textures.length
  slots_occ : ∀ e ∈ tm.cache, tm.textures.getD e.slot false = true
  slots_inj : tm.cache.Pairwise (fun a b => a.slot ≠ b.slot)
  urls_inj : tm.cache.Pairwise (fun a b => a.url ≠ b.url)
  clock_lt : ∀ e ∈ tm.cache, e.lastAccessed < tm.clock
  times_inj : tm.cache.Pairwise (fun a b => a.lastAccessed ≠ b.lastAccessed)

/-- The structural part of `WF`: everything except the budget bound on
`currentSize` (which is temporarily violated between a cache insertion
and the `enforceMemoryLimits` call that follows it). -/
structure WFcore (tm : TextureManager) : Prop where
  size_eq : tm.currentSize = sumSizes tm.cache
  budget_nonneg : 0 ≤ tm.maxMemoryUsage
  slots_lt : ∀ e ∈ tm.cache, e.slot < tm.textures.length
  slots_occ : ∀ e ∈ tm.cache, tm.textures.getD e.slot false = true
  slots_inj : tm.cache.Pairwise (fun a b => a.slot ≠ b.slot)
  urls_inj : tm.cache.Pairwise (fun a b => a.url ≠ b.url)
  clock_lt : ∀ e ∈ tm.cache, e.lastAccessed < tm.clock
  times_inj : tm.cache.Pairwise (fun a b => a.lastAccessed ≠ b.lastAccessed)

/-- The spec's LRU scenario, run on the model: budget of three units
(one unit = the estimated size of a 1×1 image), loads of `"a"`, `"b"`,
`"c"`, a re-access of `"a"`, then a load of `"d"`; the pair holds the
resident urls just before and just after the `"d"` load. -/
def lruScenarioPair : List String × List String :=
  let unit : Int := (estimateImageSize { id := 1, src := "a", width := 1, height := 1 } : Int)
  let tm := init (3 * unit) 32
  let tm := (tm.getTextureForUrl "a" (some { id := 1, src := "a", width := 1, height := 1 })).1
  let tm := (tm.getTextureForUrl "b" (some { id := 2, src := "b", width := 1, height := 1 })).1
  let tm := (tm.getTextureForUrl "c" (some { id := 3, src := "c", width := 1, height := 1 })).1
  let tm := (tm.getTextureForUrl "a" none).1
  let before := residentUrls tm
  let tm := (tm.getTextureForUrl "d" (some { id := 4, src := "d", width := 1, height := 1 })).1
  (before, residentUrls tm)

end TextureManager

/-- Modelled from the spec's words (for comparison with the code): the
clamp of the mix value to the interval `[0,1]`. -/
def specClamp01 (v : Rat) : Rat := max 0 (min 1 v)

/-- A render pass whose program has the mix uniform at location 7 and whose
location cache already holds it (as after `init` sets it once); used to
exercise `setMixValue` on concrete data. -/
def mixProbePass : RPass :=
  { uniforms :=
      { prog := [("u_mixRatio", 7)]
        locations := [("u_mixRatio", some 7)]
        gpu := [] }
    sources := [] }

/-- A one-pass renderer around `mixProbePass` in the quiescent state. -/
def mixProbeRenderer : WebGLRenderer :=
  { passes := [mixProbePass]
    textures := none
    initialized := true
    needsRender := false
    pendingCallbacks := 0
    draws := 0 }

/-! ## Lemmas: cache primitives -/

namespace TextureManager

theorem sumSizes_nil : sumSizes [] = 0 := rfl

theorem sumSizes_cons (e : CachedTexture) (l : List CachedTexture) :
    sumSizes (e :: l) = (e.size : Int) + sumSizes l := by
  simp [sumSizes]

theorem sumSizes_append (l1 l2 : List CachedTexture) :
    sumSizes (l1 ++ l2) = sumSizes l1 + sumSizes l2 := by
  simp [sumSizes]

theorem sumSizes_nonneg (l : List CachedTexture) : 0 ≤ sumSizes l := by
  induction l with
  | nil => simp [sumSizes]
  | cons e l ih =>
      rw [sumSizes_cons]
      have : (0 : Int) ≤ (e.size : Int) := Int.natCast_nonneg _
      omega

theorem findBySlot_nil (s : Nat) : findBySlot [] s = none := rfl

theorem findBySlot_cons (c : CachedTexture) (cs : List CachedTexture) (s : Nat) :
    findBySlot (c :: cs) s = if c.slot = s then some c else findBySlot cs s := by
  by_cases h : c.slot = s
  · have hb : (c.slot == s) = true := by simpa using h
    simp [findBySlot, List.find?, hb, h]
  · have hb : (c.slot == s) = false := by simpa using h
    simp [findBySlot, List.find?, hb, h]

theorem removeFirstSlot_cons (c : CachedTexture) (cs : List CachedTexture) (s : Nat) :
    removeFirstSlot (c :: cs) s = if c.slot = s then cs else c :: removeFirstSlot cs s := by
  by_cases h : c.slot = s <;> simp [removeFirstSlot, h]

theorem findBySlot_eq_none {cache : List CachedTexture} {s : Nat} :
    findBySlot cache s = none ↔ ∀ e ∈ cache, e.slot ≠ s := by
  simp [findBySlot, List.find?_eq_none]

theorem findBySlot_mem {cache : List CachedTexture} {s : Nat} {e : CachedTexture}
    (h : findBySlot cache s = some e) : e ∈ cache ∧ e.slot = s := by
  refine ⟨List.mem_of_find?_eq_some h, ?_⟩
  have := List.find?_some h
  simpa using this

theorem findBySlot_of_inj {cache : List CachedTexture} {m : CachedTexture}
    (hinj : cache.Pairwise (fun a b => a.slot ≠ b.slot)) (hm : m ∈ cache) :
    findBySlot cache m.slot = some m := by
  induction cache with
  | nil => cases hm
  | cons c cs ih =>
      rw [findBySlot_cons]
      rcases List.mem_cons.1 hm with h | h
      · subst h; rw [if_pos rfl]
      · have hc : c.slot ≠ m.slot := (List.pairwise_cons.1 hinj).1 m h
        rw [if_neg hc]
        exact ih (List.pairwise_cons.1 hinj).2 h

theorem removeFirstSlot_sublist (cache : List CachedTexture) (s : Nat) :
    (removeFirstSlot cache s).Sublist cache := by
  induction cache with
  | nil => simp [removeFirstSlot]
  | cons c cs ih =>
      rw [removeFirstSlot_cons]
      by_cases h : c.slot = s
      · rw [if_pos h]; exact List.sublist_cons_self c cs
      · rw [if_neg h]; exact List.Sublist.cons₂ c ih

theorem mem_of_mem_removeFirstSlot {cache : List CachedTexture} {s : Nat}
    {y : CachedTexture} (h : y ∈ removeFirstSlot cache s) : y ∈ cache :=
  (removeFirstSlot_sublist cache s).mem h

theorem pairwise_removeFirstSlot {R : CachedTexture → CachedTexture → Prop}
    {cache : List CachedTexture} {s : Nat} (h : cache.Pairwise R) :
    (removeFirstSlot cache s).Pairwise R :=
  h.sublist (removeFirstSlot_sublist cache s)

theorem length_removeFirstSlot {cache : List CachedTexture} {s : Nat} {e : CachedTexture}
    (h : findBySlot cache s = some e) :
    (removeFirstSlot cache s).length + 1 = cache.length := by
  induction cache with
  | nil => simp [findBySlot_nil] at h
  | cons c cs ih =>
      rw [findBySlot_cons] at h
      rw [removeFirstSlot_cons]
      by_cases hc : c.slot = s
      · rw [if_pos hc]; simp
      · rw [if_neg hc] at h
        rw [if_neg hc, List.length_cons, List.length_cons, ih h]

theorem sumSizes_removeFirstSlot {cache : List CachedTexture} {s : Nat} {e : CachedTexture}
    (h : findBySlot cache s = some e) :
    sumSizes (removeFirstSlot cache s) = sumSizes cache - (e.size : Int) := by
  induction cache with
  | nil => simp [findBySlot_nil] at h
  | cons c cs ih =>
      rw [findBySlot_cons] at h
      rw [removeFirstSlot_cons]
      by_cases hc : c.slot = s
      · rw [if_pos hc] at h
        cases h
        rw [if_pos hc, sumSizes_cons]
        omega
      · rw [if_neg hc] at h
        rw [if_neg hc, sumSizes_cons, sumSizes_cons, ih h]
        omega

theorem mem_removeFirstSlot_of_ne {cache : List CachedTexture} {s : Nat}
    {y : CachedTexture} (hy : y ∈ cache) (hne : y.slot ≠ s) :
    y ∈ removeFirstSlot cache s := by
  induction cache with
  | nil => cases hy
  | cons c cs ih =>
      rw [removeFirstSlot_cons]
      by_cases hc : c.slot = s
      · rw [if_pos hc]
        rcases List.mem_cons.1 hy with h | h
        · subst h; exact absurd hc hne
        · exact h
      · rw [if_neg hc]
        rcases List.mem_cons.1 hy with h | h
        · subst h; exact List.mem_cons_self _ _
        · exact List.mem_cons_of_mem _ (ih h)

theorem findOldestFrom_mem (o : CachedTexture) (l : List CachedTexture) :
    findOldestFrom o l = o ∨ findOldestFrom o l ∈ l := by
  induction l generalizing o with
  | nil => left; rfl
  | cons c cs ih =>
      simp only [findOldestFrom]
      by_cases h : c.lastAccessed < o.lastAccessed
      · rw [if_pos h]
        rcases ih c with h' | h'
        · right; rw [h']; exact List.mem_cons_self _ _
        · right; exact List.mem_cons_of_mem _ h'
      · rw [if_neg h]
        rcases ih o with h' | h'
        · left; exact h'
        · right; exact List.mem_cons_of_mem _ h'

theorem findOldestFrom_le (o : CachedTexture) (l : List CachedTexture) :
    (findOldestFrom o l).lastAccessed ≤ o.lastAccessed ∧
      ∀ e ∈ l, (findOldestFrom o l).lastAccessed ≤ e.lastAccessed := by
  induction l generalizing o with
  | nil => exact ⟨Nat.le_refl _, by simp⟩
  | cons c cs ih =>
      simp only [findOldestFrom]
      by_cases h : c.lastAccessed < o.lastAccessed
      · rw [if_pos h]
        obtain ⟨h1, h2⟩ := ih c
        refine ⟨Nat.le_trans h1 (Nat.le_of_lt h), ?_⟩
        intro e he
        rcases List.mem_cons.1 he with he | he
        · subst he; exact h1
        · exact h2 e he
      · rw [if_neg h]
        obtain ⟨h1, h2⟩ := ih o
        refine ⟨h1, ?_⟩
        intro e he
        rcases List.mem_cons.1 he with he | he
        · subst he; exact Nat.le_trans h1 (Nat.le_of_not_lt h)
        · exact h2 e he

theorem findOldest_spec {cache : List CachedTexture} (h : cache ≠ []) :
    ∃ m, findOldest cache = some m ∧ m ∈ cache ∧
      ∀ e ∈ cache, m.lastAccessed ≤ e.lastAccessed := by
  cases cache with
  | nil => exact absurd rfl h
  | cons c cs =>
      refine ⟨findOldestFrom c cs, rfl, ?_, ?_⟩
      · rcases findOldestFrom_mem c cs with h' | h'
        · rw [h']; exact List.mem_cons_self _ _
        · exact List.mem_cons_of_mem _ h'
      · intro e he
        obtain ⟨h1, h2⟩ := findOldestFrom_le c cs
        rcases List.mem_cons.1 he with he | he
        · subst he; exact h1
        · exact h2 e he

end TextureManager

/-! ## Lemmas: map primitives and slots -/

namespace TextureManager

theorem mapGet_nil (url : String) : mapGet [] url = none := rfl

theorem mapGet_cons (c : CachedTexture) (cs : List CachedTexture) (url : String) :
    mapGet (c :: cs) url = if c.url = url then some c else mapGet cs url := by
  by_cases h : c.url = url
  · have hb : (c.url == url) = true := by simpa using h
    simp [mapGet, List.find?, hb, h]
  · have hb : (c.url == url) = false := by simpa using h
    simp [mapGet, List.find?, hb, h]

theorem mapGet_eq_none {cache : List CachedTexture} {url : String} :
    mapGet cache url = none ↔ ∀ e ∈ cache, e.url ≠ url := by
  simp [mapGet, List.find?_eq_none]

theorem mapGet_mem {cache : List CachedTexture} {url : String} {x : CachedTexture}
    (h : mapGet cache url = some x) : x ∈ cache ∧ x.url = url := by
  refine ⟨List.mem_of_find?_eq_some h, ?_⟩
  have := List.find?_some h
  simpa using this

theorem mapSet_of_fresh {cache : List CachedTexture} {e : CachedTexture}
    (h : ∀ c ∈ cache, c.url ≠ e.url) : mapSet cache e = cache ++ [e] := by
  induction cache with
  | nil => rfl
  | cons c cs ih =>
      have hc : (c.url == e.url) = false := by
        simpa using h c (List.mem_cons_self _ _)
      simp only [mapSet, hc, Bool.false_eq_true, if_false, List.cons_append]
      rw [ih (fun x hx => h x (List.mem_cons_of_mem _ hx))]

theorem mapUpdate_decomp {cache : List CachedTexture} {url : String} {x : CachedTexture}
    (h : mapGet cache url = some x) (f : CachedTexture → CachedTexture) :
    ∃ l1 l2, cache = l1 ++ x :: l2 ∧ (∀ y ∈ l1, y.url ≠ url) ∧
      mapUpdate cache url f = l1 ++ f x :: l2 := by
  induction cache with
  | nil => simp [mapGet_nil] at h
  | cons c cs ih =>
      rw [mapGet_cons] at h
      by_cases hc : c.url = url
      · rw [if_pos hc] at h
        cases h
        refine ⟨[], cs, rfl, by simp, ?_⟩
        have hb : (x.url == url) = true := by simpa using hc
        simp [mapUpdate, hb]
      · rw [if_neg hc] at h
        obtain ⟨l1, l2, hcache, hl1, hupd⟩ := ih h
        refine ⟨c :: l1, l2, by rw [hcache]; rfl, ?_, ?_⟩
        · intro y hy
          rcases List.mem_cons.1 hy with hy | hy
          · subst hy; exact hc
          · exact hl1 y hy
        · have hb : (c.url == url) = false := by simpa using hc
          simp only [mapUpdate, hb, Bool.false_eq_true, if_false, List.cons_append]
          rw [hupd]

theorem findByImage_nil (i : Nat) : findByImage [] i = none := rfl

theorem findByImage_cons (c : CachedTexture) (cs : List CachedTexture) (i : Nat) :
    findByImage (c :: cs) i = if c.imageId = i then some c else findByImage cs i := by
  by_cases h : c.imageId = i
  · have hb : (c.imageId == i) = true := by simpa using h
    simp [findByImage, List.find?, hb, h]
  · have hb : (c.imageId == i) = false := by simpa using h
    simp [findByImage, List.find?, hb, h]

theorem findByImage_mem {cache : List CachedTexture} {i : Nat} {x : CachedTexture}
    (h : findByImage cache i = some x) : x ∈ cache ∧ x.imageId = i := by
  refine ⟨List.mem_of_find?_eq_some h, ?_⟩
  have := List.find?_some h
  simpa using this

theorem mapUpdateImage_decomp {cache : List CachedTexture} {i : Nat} {x : CachedTexture}
    (h : findByImage cache i = some x) (f : CachedTexture → CachedTexture) :
    ∃ l1 l2, cache = l1 ++ x :: l2 ∧
      mapUpdateImage cache i f = l1 ++ f x :: l2 := by
  induction cache with
  | nil => simp [findByImage_nil] at h
  | cons c cs ih =>
      rw [findByImage_cons] at h
      by_cases hc : c.imageId = i
      · rw [if_pos hc] at h
        cases h
        refine ⟨[], cs, rfl, ?_⟩
        have hb : (x.imageId == i) = true := by simpa using hc
        simp [mapUpdateImage, hb]
      · rw [if_neg hc] at h
        obtain ⟨l1, l2, hcache, hupd⟩ := ih h
        refine ⟨c :: l1, l2, by rw [hcache]; rfl, ?_⟩
        have hb : (c.imageId == i) = false := by simpa using hc
        simp only [mapUpdateImage, hb, Bool.false_eq_true, if_false, List.cons_append]
        rw [hupd]

theorem getD_set_self {l : List Bool} {i : Nat} {a : Bool} (h : i < l.length) :
    (l.set i a).getD i false = a := by
  rw [List.getD_eq_getElem?_getD, List.getElem?_set_self h]
  rfl

theorem getD_set_ne {l : List Bool} {i j : Nat} {a : Bool} (h : i ≠ j) :
    (l.set i a).getD j false = l.getD j false := by
  rw [List.getD_eq_getElem?_getD, List.getElem?_set_ne h, ← List.getD_eq_getElem?_getD]

theorem findIdx?_spec {α : Type} {p : α → Bool} :
    ∀ {l : List α} {i : Nat}, List.findIdx? p l = some i →
      ∃ h : i < l.length, p (l.get ⟨i, h⟩) = true := by
  intro l
  induction l with
  | nil => intro i h; simp [List.findIdx?] at h
  | cons a l ih =>
      intro i h
      rw [List.findIdx?_cons] at h
      by_cases ha : p a
      · rw [if_pos ha] at h
        cases h
        exact ⟨Nat.succ_pos _, ha⟩
      · rw [if_neg ha] at h
        rw [show (0 + 1 : Nat) = 1 from rfl, List.findIdx?_succ] at h
        rcases Option.map_eq_some'.1 h with ⟨j, hj, hji⟩
        have hji : j + 1 = i := hji
        cases i with
        | zero => omega
        | succ i =>
            have hj' : List.findIdx? p l = some i := by
              have : j = i := by omega
              rw [← this]; exact hj
            obtain ⟨hlt, hp⟩ := ih hj'
            exact ⟨Nat.succ_lt_succ hlt, hp⟩

theorem findAvailableSlot_spec {tm : TextureManager} {i : Nat}
    (h : findAvailableSlot tm = some i) :
    i < tm.textures.length ∧ tm.textures.getD i false = false := by
  obtain ⟨hlt, hp⟩ := findIdx?_spec h
  refine ⟨hlt, ?_⟩
  have : tm.textures.getD i false = tm.textures.get ⟨i, hlt⟩ := by
    rw [List.getD_eq_getElem?_getD, List.getElem?_eq_getElem hlt]
    rfl
  rw [this]
  simpa using hp

theorem findAvailableSlot_ne_none {tm : TextureManager} {i : Nat}
    (hlt : i < tm.textures.length) (hfree : tm.textures.getD i false = false) :
    findAvailableSlot tm ≠ none := by
  intro hnone
  have hall := List.findIdx?_eq_none_iff.1 hnone
  have hgd : tm.textures.getD i false = tm.textures.get ⟨i, hlt⟩ := by
    rw [List.getD_eq_getElem?_getD, List.getElem?_eq_getElem hlt]
    rfl
  have hmem : tm.textures.get ⟨i, hlt⟩ ∈ tm.textures := List.get_mem _ _ _
  have := hall _ hmem
  rw [← hgd, hfree] at this
  simp at this

end TextureManager

/-! ## Lemmas: releaseTexture and evictLRU -/

namespace TextureManager

theorem WF.core {tm : TextureManager} (h : WF tm) : WFcore tm :=
  ⟨h.size_eq, h.budget_nonneg, h.slots_lt, h.slots_occ, h.slots_inj, h.urls_inj,
    h.clock_lt, h.times_inj⟩

theorem WF.of_core {tm : TextureManager} (h : WFcore tm)
    (hb : tm.currentSize ≤ tm.maxMemoryUsage) : WF tm :=
  ⟨h.size_eq, h.budget_nonneg, hb, h.slots_lt, h.slots_occ, h.slots_inj, h.urls_inj,
    h.clock_lt, h.times_inj⟩

theorem cache_nodup {cache : List CachedTexture}
    (h : cache.Pairwise (fun a b => a.url ≠ b.url)) : cache.Nodup :=
  h.imp (fun hne heq => hne (by rw [heq]))

theorem not_mem_removeFirstSlot_self {cache : List CachedTexture} {m : CachedTexture}
    (hinj : cache.Pairwise (fun a b => a.slot ≠ b.slot)) (hnodup : cache.Nodup)
    (hm : m ∈ cache) : m ∉ removeFirstSlot cache m.slot := by
  induction cache with
  | nil => simp [removeFirstSlot]
  | cons c cs ih =>
      rw [removeFirstSlot_cons]
      rcases List.mem_cons.1 hm with h | h
      · subst h
        rw [if_pos rfl]
        exact (List.nodup_cons.1 hnodup).1
      · by_cases hc : c.slot = m.slot
        · exact absurd hc ((List.pairwise_cons.1 hinj).1 m h)
        · rw [if_neg hc]
          intro hmem
          rcases List.mem_cons.1 hmem with h' | h'
          · exact (List.nodup_cons.1 hnodup).1 (h' ▸ h)
          · exact ih (List.pairwise_cons.1 hinj).2 (List.nodup_cons.1 hnodup).2 h h'

theorem mem_removeFirstSlot_iff {cache : List CachedTexture} {m y : CachedTexture}
    (hinj : cache.Pairwise (fun a b => a.slot ≠ b.slot)) (hnodup : cache.Nodup)
    (hm : m ∈ cache) :
    y ∈ removeFirstSlot cache m.slot ↔ (y ∈ cache ∧ y ≠ m) := by
  constructor
  · intro hy
    refine ⟨mem_of_mem_removeFirstSlot hy, ?_⟩
    intro heq
    exact not_mem_removeFirstSlot_self hinj hnodup hm (heq ▸ hy)
  · rintro ⟨hy, hne⟩
    have hslot : y.slot ≠ m.slot :=
      hinj.forall (fun _ _ h => Ne.symm h) hy hm hne
    exact mem_removeFirstSlot_of_ne hy hslot

theorem releaseTexture_eq {tm : TextureManager} {m : CachedTexture}
    (hlt : m.slot < tm.textures.length)
    (hfind : findBySlot tm.cache m.slot = some m) :
    releaseTexture tm m.slot =
      { tm with
          textures := if tm.textures.getD m.slot false then tm.textures.set m.slot false
                      else tm.textures
          cache := removeFirstSlot tm.cache m.slot
          currentSize := tm.currentSize - (m.size : Int) } := by
  simp only [releaseTexture, if_pos hlt, hfind]

theorem releaseTexture_spec {tm : TextureManager} {m : CachedTexture}
    (hlt : m.slot < tm.textures.length)
    (hinj : tm.cache.Pairwise (fun a b => a.slot ≠ b.slot))
    (hm : m ∈ tm.cache) :
    (releaseTexture tm m.slot).cache = removeFirstSlot tm.cache m.slot ∧
    (releaseTexture tm m.slot).currentSize = tm.currentSize - (m.size : Int) ∧
    (releaseTexture tm m.slot).maxMemoryUsage = tm.maxMemoryUsage ∧
    (releaseTexture tm m.slot).clock = tm.clock ∧
    (releaseTexture tm m.slot).textures.length = tm.textures.length ∧
    ∀ j, j ≠ m.slot →
      (releaseTexture tm m.slot).textures.getD j false = tm.textures.getD j false := by
  rw [releaseTexture_eq hlt (findBySlot_of_inj hinj hm)]
  refine ⟨rfl, rfl, rfl, rfl, ?_, ?_⟩
  · split
    · exact List.length_set _ _ _
    · rfl
  · intro j hj
    split
    · exact getD_set_ne (Ne.symm hj)
    · rfl

theorem evictLRU_spec {tm : TextureManager} (hc : WFcore tm) (hne : tm.cache ≠ []) :
    ∃ m, m ∈ tm.cache ∧ (∀ e ∈ tm.cache, m.lastAccessed ≤ e.lastAccessed) ∧
      (evictLRU tm).cache = removeFirstSlot tm.cache m.slot ∧
      (evictLRU tm).currentSize = tm.currentSize - (m.size : Int) ∧
      (evictLRU tm).maxMemoryUsage = tm.maxMemoryUsage ∧
      (evictLRU tm).clock = tm.clock ∧
      WFcore (evictLRU tm) ∧
      (evictLRU tm).cache.length + 1 = tm.cache.length ∧
      (∀ y, y ∈ (evictLRU tm).cache ↔ (y ∈ tm.cache ∧ y ≠ m)) := by
  obtain ⟨m, hfold, hmem, hmin⟩ := findOldest_spec hne
  have hlt : m.slot < tm.textures.length := hc.slots_lt m hmem
  have hspec := releaseTexture_spec hlt hc.slots_inj hmem
  have hev : evictLRU tm = releaseTexture tm m.slot := by
    simp only [evictLRU, hfold]
  rw [hev]
  obtain ⟨hcache, hsize, hmax, hclock, hlen, htex⟩ := hspec
  have hnodup : tm.cache.Nodup := cache_nodup hc.urls_inj
  have hmemiff : ∀ y, y ∈ (releaseTexture tm m.slot).cache ↔ (y ∈ tm.cache ∧ y ≠ m) := by
    intro y
    rw [hcache]
    exact mem_removeFirstSlot_iff hc.slots_inj hnodup hmem
  refine ⟨m, hmem, hmin, hcache, hsize, hmax, hclock, ?_, ?_, hmemiff⟩
  · refine ⟨?_, ?_, ?_, ?_, ?_, ?_, ?_, ?_⟩
    · rw [hsize, hcache, sumSizes_removeFirstSlot (findBySlot_of_inj hc.slots_inj hmem),
        hc.size_eq]
    · rw [hmax]; exact hc.budget_nonneg
    · intro e he
      have := hc.slots_lt e ((hmemiff e).1 he).1
      omega
    · intro e he
      obtain ⟨hein, hene⟩ := (hmemiff e).1 he
      have hslot : e.slot ≠ m.slot :=
        hc.slots_inj.forall (fun _ _ h => Ne.symm h) hein hmem hene
      rw [htex e.slot hslot]
      exact hc.slots_occ e hein
    · rw [hcache]; exact pairwise_removeFirstSlot hc.slots_inj
    · rw [hcache]; exact pairwise_removeFirstSlot hc.urls_inj
    · intro e he
      rw [hclock]
      exact hc.clock_lt e ((hmemiff e).1 he).1
    · rw [hcache]; exact pairwise_removeFirstSlot hc.times_inj
  · rw [hcache]
    exact length_removeFirstSlot (findBySlot_of_inj hc.slots_inj hmem)

theorem enforceLoop_succ (fuel : Nat) (tm : TextureManager) :
    enforceLoop (fuel + 1) tm =
      if tm.maxMemoryUsage < tm.currentSize ∧ tm.cache ≠ [] then
        enforceLoop fuel (evictLRU tm)
      else tm := by
  simp only [enforceLoop]
  by_cases h1 : tm.maxMemoryUsage < tm.currentSize <;>
    by_cases h2 : tm.cache = [] <;>
      simp [h1, h2, List.isEmpty_iff]

end TextureManager

/-! ## Lemmas: the eviction loop -/

namespace TextureManager

theorem enforceLoop_spec :
    ∀ (fuel : Nat) (tm : TextureManager), WFcore tm → tm.cache.length ≤ fuel →
      WFcore (enforceLoop fuel tm) ∧
      (enforceLoop fuel tm).maxMemoryUsage = tm.maxMemoryUsage ∧
      (enforceLoop fuel tm).clock = tm.clock ∧
      (enforceLoop fuel tm).currentSize ≤ tm.maxMemoryUsage ∧
      (∀ e ∈ (enforceLoop fuel tm).cache, e ∈ tm.cache) ∧
      (∀ o ∈ tm.cache, o ∉ (enforceLoop fuel tm).cache →
          ∀ s ∈ (enforceLoop fuel tm).cache, o.lastAccessed < s.lastAccessed) ∧
      (∀ e ∈ tm.cache, (∀ x ∈ tm.cache, x.lastAccessed ≤ e.lastAccessed) →
          (e.size : Int) ≤ tm.maxMemoryUsage → e ∈ (enforceLoop fuel tm).cache) := by
  intro fuel
  induction fuel with
  | zero =>
      intro tm hWF hfuel
      have hempty : tm.cache = [] := List.eq_nil_of_length_eq_zero (Nat.le_zero.1 hfuel)
      have hcur : tm.currentSize = 0 := by rw [hWF.size_eq, hempty]; rfl
      have hred : enforceLoop 0 tm = tm := rfl
      rw [hred]
      refine ⟨hWF, rfl, rfl, ?_, fun e he => he, ?_, fun e he _ _ => he⟩
      · rw [hcur]; exact hWF.budget_nonneg
      · intro o ho hno s hs
        exact absurd ho hno
  | succ fuel ih =>
      intro tm hWF hfuel
      rw [enforceLoop_succ]
      by_cases hguard : tm.maxMemoryUsage < tm.currentSize ∧ tm.cache ≠ []
      · rw [if_pos hguard]
        obtain ⟨hover, hne⟩ := hguard
        obtain ⟨m, hmem, hmin, hcache, hsize, hmax, hclock, hWF1, hlen, hmemiff⟩ :=
          evictLRU_spec hWF hne
        have hfuel1 : (evictLRU tm).cache.length ≤ fuel := by omega
        obtain ⟨ihWF, ihmax, ihclock, ihbud, ihsub, ihlru, ihkeep⟩ :=
          ih (evictLRU tm) hWF1 hfuel1
        refine ⟨ihWF, by rw [ihmax, hmax], by rw [ihclock, hclock], ?_, ?_, ?_, ?_⟩
        · rw [← hmax]; exact ihbud
        · intro e he
          exact ((hmemiff e).1 (ihsub e he)).1
        · intro o ho hno s hs
          by_cases hom : o = m
          · subst hom
            have hsin : s ∈ tm.cache ∧ s ≠ o := (hmemiff s).1 (ihsub s hs)
            have hle : o.lastAccessed ≤ s.lastAccessed := hmin s hsin.1
            have hneq : o.lastAccessed ≠ s.lastAccessed :=
              hWF.times_inj.forall (fun _ _ h => Ne.symm h) ho hsin.1 (Ne.symm hsin.2)
            omega
          · have ho1 : o ∈ (evictLRU tm).cache := (hmemiff o).2 ⟨ho, hom⟩
            exact ihlru o ho1 hno s hs
        · intro e he hmaxts hsz
          have hem : e ≠ m := by
            intro heq
            subst heq
            by_cases hall : ∀ x ∈ tm.cache, x = e
            · have hsingle : tm.cache = [e] := by
                cases hcachecase : tm.cache with
                | nil => exact absurd hcachecase hne
                | cons c cs =>
                    have hc : c = e :=
                      hall c (by rw [hcachecase]; exact List.mem_cons_self _ _)
                    have hcs : cs = [] := by
                      cases hcscase : cs with
                      | nil => rfl
                      | cons d ds =>
                          have hd : d = e := hall d (by
                            rw [hcachecase, hcscase]
                            exact List.mem_cons_of_mem _ (List.mem_cons_self _ _))
                          have hnodup := cache_nodup hWF.urls_inj
                          rw [hcachecase, hcscase] at hnodup
                          have hnotin := (List.nodup_cons.1 hnodup).1
                          exact absurd (by
                            rw [hc, ← hd]
                            exact List.mem_cons_self _ _) hnotin
                    rw [hcs, hc]
              have hcur : tm.currentSize = (e.size : Int) := by
                rw [hWF.size_eq, hsingle, sumSizes_cons, sumSizes_nil]
                omega
              omega
            · push_neg at hall
              obtain ⟨x, hx, hxe⟩ := hall
              have h1 : x.lastAccessed ≤ e.lastAccessed := hmaxts x hx
              have h2 : e.lastAccessed ≤ x.lastAccessed := hmin x hx
              have h3 : x.lastAccessed ≠ e.lastAccessed :=
                hWF.times_inj.forall (fun _ _ h => Ne.symm h) hx he hxe
              omega
          have he1 : e ∈ (evictLRU tm).cache := (hmemiff e).2 ⟨he, hem⟩
          refine ihkeep e he1 ?_ ?_
          · intro x hx
            exact hmaxts x ((hmemiff x).1 hx).1
          · rw [hmax]; exact hsz
      · rw [if_neg hguard]
        push_neg at hguard
        refine ⟨hWF, rfl, rfl, ?_, fun e he => he, ?_, fun e he _ _ => he⟩
        · by_cases hover : tm.maxMemoryUsage < tm.currentSize
          · have hemp := hguard hover
            have hzero : tm.currentSize = 0 := by rw [hWF.size_eq, hemp]; rfl
            have := hWF.budget_nonneg
            omega
          · omega
        · intro o ho hno s hs
          exact absurd ho hno

end TextureManager

/-! ## Lemmas: insertion and getTextureForUrl -/

namespace TextureManager

theorem pairwise_middle_replace {R : CachedTexture → CachedTexture → Prop}
    {l1 l2 : List CachedTexture} {c c' : CachedTexture}
    (hold : (l1 ++ c :: l2).Pairwise R)
    (h1 : ∀ y ∈ l1, R y c') (h2 : ∀ y ∈ l2, R c' y) :
    (l1 ++ c' :: l2).Pairwise R := by
  obtain ⟨h11, h12, h13⟩ := List.pairwise_append.1 hold
  obtain ⟨hc2, h22⟩ := List.pairwise_cons.1 h12
  refine List.pairwise_append.2 ⟨h11, ?_, ?_⟩
  · exact List.pairwise_cons.2 ⟨h2, h22⟩
  · intro y hy z hz
    rcases List.mem_cons.1 hz with hz | hz
    · subst hz; exact h1 y hy
    · exact h13 y hy z (List.mem_cons_of_mem _ hz)

theorem releaseTexture_getD_self {tm : TextureManager} {m : CachedTexture}
    (hlt : m.slot < tm.textures.length)
    (hfind : findBySlot tm.cache m.slot = some m) :
    (releaseTexture tm m.slot).textures.getD m.slot false = false := by
  rw [releaseTexture_eq hlt hfind]
  split
  · exact getD_set_self hlt
  · next hocc => simpa using hocc

theorem createTextureAtSlot_spec {tm : TextureManager} {url : String} {img : Image}
    {slot : Nat} (hWF : WFcore tm)
    (hfresh : mapGet tm.cache url = none)
    (hslot : slot < tm.textures.length)
    (hfree : tm.textures.getD slot false = false) :
    WFcore (createTextureAtSlot tm url img slot).1 ∧
    (createTextureAtSlot tm url img slot).1.maxMemoryUsage = tm.maxMemoryUsage ∧
    (createTextureAtSlot tm url img slot).1.currentSize ≤ tm.maxMemoryUsage ∧
    (∀ e ∈ (createTextureAtSlot tm url img slot).1.cache, e ∈ tm.cache ∨ e.url = url) ∧
    (∀ o ∈ tm.cache, o ∉ (createTextureAtSlot tm url img slot).1.cache →
        ∀ s ∈ tm.cache, s ∈ (createTextureAtSlot tm url img slot).1.cache →
          o.lastAccessed < s.lastAccessed) ∧
    ((estimateImageSize img : Int) ≤ tm.maxMemoryUsage →
        ∃ e ∈ (createTextureAtSlot tm url img slot).1.cache, e.url = url) := by
  have hfresh' : ∀ c ∈ tm.cache, c.url ≠ url := mapGet_eq_none.1 hfresh
  have hslotfresh : ∀ c ∈ tm.cache, c.slot ≠ slot := by
    intro c hc heq
    have := hWF.slots_occ c hc
    rw [heq, hfree] at this
    cases this
  set eNew : CachedTexture :=
    { url := url, imageId := img.id, slot := slot,
      lastAccessed := tm.clock, accessCount := 1, size := estimateImageSize img } with heNew
  have hins : createTextureAtSlot tm url img slot =
      (enforceMemoryLimits
        { tm with textures := tm.textures.set slot true
                  cache := tm.cache ++ [eNew]
                  currentSize := tm.currentSize + (estimateImageSize img : Int)
                  clock := tm.clock + 1 }, slot) := by
    simp only [createTextureAtSlot, hfree, Bool.false_eq_true, if_false]
    rw [mapSet_of_fresh (by intro c hc; exact hfresh' c hc)]
  set tmIns : TextureManager :=
    { tm with textures := tm.textures.set slot true
              cache := tm.cache ++ [eNew]
              currentSize := tm.currentSize + (estimateImageSize img : Int)
              clock := tm.clock + 1 } with htmIns
  have hWFIns : WFcore tmIns := by
    refine ⟨?_, hWF.budget_nonneg, ?_, ?_, ?_, ?_, ?_, ?_⟩
    · show tm.currentSize + (estimateImageSize img : Int) = sumSizes (tm.cache ++ [eNew])
      rw [sumSizes_append, sumSizes_cons, sumSizes_nil, hWF.size_eq]
      have hsz : eNew.size = estimateImageSize img := rfl
      omega
    · intro e he
      rcases List.mem_append.1 he with he | he
      · have := hWF.slots_lt e he
        simpa [List.length_set] using this
      · rcases List.mem_singleton.1 he with rfl
        simpa [List.length_set] using hslot
    · intro e he
      rcases List.mem_append.1 he with he | he
      · have hne : slot ≠ e.slot := fun h => hslotfresh e he h.symm
        show (tm.textures.set slot true).getD e.slot false = true
        rw [getD_set_ne hne]
        exact hWF.slots_occ e he
      · rcases List.mem_singleton.1 he with rfl
        show (tm.textures.set slot true).getD slot false = true
        exact getD_set_self hslot
    · refine List.pairwise_append.2 ⟨hWF.slots_inj, List.pairwise_singleton _ _, ?_⟩
      intro a ha b hb
      rcases List.mem_singleton.1 hb with rfl
      exact hslotfresh a ha
    · refine List.pairwise_append.2 ⟨hWF.urls_inj, List.pairwise_singleton _ _, ?_⟩
      intro a ha b hb
      rcases List.mem_singleton.1 hb with rfl
      exact hfresh' a ha
    · intro e he
      rcases List.mem_append.1 he with he | he
      · have := hWF.clock_lt e he
        show e.lastAccessed < tm.clock + 1
        omega
      · rcases List.mem_singleton.1 he with rfl
        show tm.clock < tm.clock + 1
        omega
    · refine List.pairwise_append.2 ⟨hWF.times_inj, List.pairwise_singleton _ _, ?_⟩
      intro a ha b hb
      rcases List.mem_singleton.1 hb with rfl
      have := hWF.clock_lt a ha
      show a.lastAccessed ≠ tm.clock
      omega
  obtain ⟨eWF, eMax, eClock, eBud, eSub, eLru, eKeep⟩ :=
    enforceLoop_spec tmIns.cache.length tmIns hWFIns (Nat.le_refl _)
  have hr : (createTextureAtSlot tm url img slot).1 = enforceLoop tmIns.cache.length tmIns := by
    rw [hins]
    rfl
  rw [hr]
  have hmaxIns : tmIns.maxMemoryUsage = tm.maxMemoryUsage := rfl
  refine ⟨eWF, by rw [eMax], by rw [← hmaxIns]; exact eBud, ?_, ?_, ?_⟩
  · intro e he
    rcases List.mem_append.1 (eSub e he) with he' | he'
    · exact Or.inl he'
    · rcases List.mem_singleton.1 he' with rfl
      exact Or.inr rfl
  · intro o ho hno s hs hsin
    exact eLru o (List.mem_append_left _ ho) hno s hsin
  · intro hsz
    refine ⟨eNew, ?_, rfl⟩
    refine eKeep eNew (List.mem_append_right _ (List.mem_singleton_self _)) ?_ ?_
    · intro x hx
      rcases List.mem_append.1 hx with hx | hx
      · have := hWF.clock_lt x hx
        show x.lastAccessed ≤ tm.clock
        omega
      · rcases List.mem_singleton.1 hx with rfl
        exact Nat.le_refl _
    · exact hsz

end TextureManager

/-! ## Lemmas: getTextureForUrl -/

namespace TextureManager

theorem touch_spec {tm : TextureManager} {url : String} {c : CachedTexture}
    (h : WFcore tm) (hhit : mapGet tm.cache url = some c) :
    WFcore { tm with
      cache := mapUpdate tm.cache url
        (fun e => { e with lastAccessed := tm.clock, accessCount := e.accessCount + 1 })
      clock := tm.clock + 1 } := by
  set f : CachedTexture → CachedTexture :=
    fun e => { e with lastAccessed := tm.clock, accessCount := e.accessCount + 1 } with hf
  obtain ⟨l1, l2, hcache, hl1, hupd⟩ := mapUpdate_decomp hhit f
  have hmemold : ∀ y, y ∈ l1 ∨ y ∈ l2 → y ∈ tm.cache := by
    intro y hy
    rw [hcache]
    rcases hy with hy | hy
    · exact List.mem_append_left _ hy
    · exact List.mem_append_right _ (List.mem_cons_of_mem _ hy)
  have hcm : c ∈ tm.cache := (mapGet_mem hhit).1
  have hmemnew : ∀ y ∈ l1 ++ f c :: l2, y ∈ l1 ∨ y = f c ∨ y ∈ l2 := by
    intro y hy
    rcases List.mem_append.1 hy with hy | hy
    · exact Or.inl hy
    · rcases List.mem_cons.1 hy with hy | hy
      · exact Or.inr (Or.inl hy)
      · exact Or.inr (Or.inr hy)
  have hsizes : sumSizes (l1 ++ f c :: l2) = sumSizes (l1 ++ c :: l2) := by
    rw [sumSizes_append, sumSizes_append, sumSizes_cons, sumSizes_cons]
  refine ⟨?_, h.budget_nonneg, ?_, ?_, ?_, ?_, ?_, ?_⟩
  · show tm.currentSize = sumSizes (mapUpdate tm.cache url f)
    rw [hupd, hsizes, ← hcache]
    exact h.size_eq
  · intro e he
    rw [hupd] at he
    rcases hmemnew e he with he | he | he
    · exact h.slots_lt e (hmemold e (Or.inl he))
    · subst he; exact h.slots_lt c hcm
    · exact h.slots_lt e (hmemold e (Or.inr he))
  · intro e he
    rw [hupd] at he
    rcases hmemnew e he with he | he | he
    · exact h.slots_occ e (hmemold e (Or.inl he))
    · subst he; exact h.slots_occ c hcm
    · exact h.slots_occ e (hmemold e (Or.inr he))
  · rw [hupd]
    have hold := h.slots_inj
    rw [hcache] at hold
    obtain ⟨p1, p2, p13⟩ := List.pairwise_append.1 hold
    obtain ⟨pc2, p22⟩ := List.pairwise_cons.1 p2
    exact pairwise_middle_replace hold
      (fun y hy => p13 y hy c (List.mem_cons_self _ _))
      (fun y hy => pc2 y hy)
  · rw [hupd]
    have hold := h.urls_inj
    rw [hcache] at hold
    obtain ⟨p1, p2, p13⟩ := List.pairwise_append.1 hold
    obtain ⟨pc2, p22⟩ := List.pairwise_cons.1 p2
    exact pairwise_middle_replace hold
      (fun y hy => p13 y hy c (List.mem_cons_self _ _))
      (fun y hy => pc2 y hy)
  · intro e he
    rw [hupd] at he
    show e.lastAccessed < tm.clock + 1
    rcases hmemnew e he with he | he | he
    · have := h.clock_lt e (hmemold e (Or.inl he))
      omega
    · subst he
      show tm.clock < tm.clock + 1
      omega
    · have := h.clock_lt e (hmemold e (Or.inr he))
      omega
  · rw [hupd]
    have hold := h.times_inj
    rw [hcache] at hold
    refine pairwise_middle_replace hold ?_ ?_
    · intro y hy
      have := h.clock_lt y (hmemold y (Or.inl hy))
      show y.lastAccessed ≠ tm.clock
      omega
    · intro y hy
      have := h.clock_lt y (hmemold y (Or.inr hy))
      show tm.clock ≠ y.lastAccessed
      omega

theorem getTextureForUrl_spec (url : String) (load : Option Image)
    {tm : TextureManager} (h : WF tm) :
    WF (getTextureForUrl tm url load).1 ∧
    (getTextureForUrl tm url load).1.maxMemoryUsage = tm.maxMemoryUsage := by
  cases hget : mapGet tm.cache url with
  | some c =>
      simp only [getTextureForUrl, hget]
      exact ⟨WF.of_core (touch_spec h.core hget) h.budget_ok, trivial⟩
  | none =>
      cases load with
      | none =>
          simp only [getTextureForUrl, hget]
          exact ⟨h, trivial⟩
      | some img =>
          simp only [getTextureForUrl, hget]
          cases hslot : findAvailableSlot tm with
          | some slot =>
              simp only [createTextureFromImage, hslot]
              obtain ⟨hlt, hfree⟩ := findAvailableSlot_spec hslot
              obtain ⟨cWF, cMax, cBud, _, _, _⟩ :=
                createTextureAtSlot_spec h.core hget hlt hfree
              exact ⟨WF.of_core cWF (by rw [cMax]; exact cBud), cMax⟩
          | none =>
              simp only [createTextureFromImage, hslot]
              by_cases hne : tm.cache = []
              · have hev : evictLRU tm = tm := by
                  simp [evictLRU, hne, findOldest]
                rw [hev, hslot]
                exact ⟨h, rfl⟩
              · obtain ⟨m, hmem, hmin, hcache, hsize, hmax, hclock, hWF1, hlen, hmemiff⟩ :=
                  evictLRU_spec h.core hne
                have hWF1' : WF (evictLRU tm) := by
                  refine WF.of_core hWF1 ?_
                  rw [hsize, hmax]
                  have h1 := h.budget_ok
                  have h2 : (0 : Int) ≤ (m.size : Int) := Int.natCast_nonneg _
                  omega
                cases hslot2 : findAvailableSlot (evictLRU tm) with
                | some slot2 =>
                    simp only [hslot2]
                    obtain ⟨hlt2, hfree2⟩ := findAvailableSlot_spec hslot2
                    have hget1 : mapGet (evictLRU tm).cache url = none := by
                      rw [mapGet_eq_none]
                      intro e he
                      exact (mapGet_eq_none.1 hget) e ((hmemiff e).1 he).1
                    obtain ⟨cWF, cMax, cBud, _, _, _⟩ :=
                      createTextureAtSlot_spec hWF1 hget1 hlt2 hfree2
                    refine ⟨WF.of_core cWF (by rw [cMax]; exact cBud), ?_⟩
                    rw [cMax, hmax]
                | none =>
                    simp only [hslot2]
                    exact ⟨hWF1', hmax⟩

theorem getTextureForUrl_fail {tm : TextureManager} {url : String} {load : Option Image}
    (h : WF tm) (hfail : (getTextureForUrl tm url load).2 = none) :
    (getTextureForUrl tm url load).1 = tm := by
  cases hget : mapGet tm.cache url with
  | some c => simp [getTextureForUrl, hget] at hfail
  | none =>
      cases load with
      | none => simp only [getTextureForUrl, hget]
      | some img =>
          simp only [getTextureForUrl, hget] at hfail ⊢
          cases hslot : findAvailableSlot tm with
          | some slot => simp [createTextureFromImage, hslot] at hfail
          | none =>
              simp only [createTextureFromImage, hslot] at hfail ⊢
              by_cases hne : tm.cache = []
              · have hev : evictLRU tm = tm := by
                  simp [evictLRU, hne, findOldest]
                rw [hev, hslot] at hfail ⊢
              · obtain ⟨m, hfold, hmem, hmin⟩ := findOldest_spec hne
                have hlt : m.slot < tm.textures.length := h.core.slots_lt m hmem
                have hfind := findBySlot_of_inj h.core.slots_inj hmem
                have hev : evictLRU tm = releaseTexture tm m.slot := by
                  simp [evictLRU, hfold]
                have hfree : (evictLRU tm).textures.getD m.slot false = false := by
                  rw [hev]; exact releaseTexture_getD_self hlt hfind
                have hlen : (evictLRU tm).textures.length = tm.textures.length := by
                  rw [hev]
                  exact (releaseTexture_spec hlt h.core.slots_inj hmem).2.2.2.2.1
                have hne2 : findAvailableSlot (evictLRU tm) ≠ none :=
                  findAvailableSlot_ne_none (by rw [hlen]; exact hlt) hfree
                cases hslot2 : findAvailableSlot (evictLRU tm) with
                | some s2 => rw [hslot2] at hfail; simp at hfail
                | none => exact absurd hslot2 hne2

theorem WF_init {budget : Int} (h : 0 ≤ budget) (maxSlots : Nat) :
    WF (init budget maxSlots) := by
  refine ⟨rfl, h, h, ?_, ?_, ?_, ?_, ?_, ?_⟩ <;> simp [init]

theorem runGetOrLoad_WF {tm : TextureManager} (h : WF tm)
    (ops : List (String × Option Image)) :
    WF (runGetOrLoad tm ops) ∧ (runGetOrLoad tm ops).maxMemoryUsage = tm.maxMemoryUsage := by
  induction ops generalizing tm with
  | nil => exact ⟨h, rfl⟩
  | cons op rest ih =>
      obtain ⟨url, load⟩ := op
      obtain ⟨h1, hmax1⟩ := getTextureForUrl_spec url load h
      obtain ⟨h2, hmax2⟩ := ih h1
      exact ⟨h2, by rw [runGetOrLoad, hmax2, hmax1]⟩

end TextureManager

/-! ## Claims C1, C2, C3 -/

namespace TextureManager

/-- C1: for every sequence of `getOrLoad` (`getTextureForUrl`) calls on a
`TextureManager` with a fixed nonnegative memory budget, after each call
the reported total size (`getStats().memoryUsage`, the spec's
`stats().approxBytes`) is at most the budget.  Quantifying over all call
sequences covers the state after every individual call. -/
theorem getOrLoad_budget_invariant (budget : Int) (hb : 0 ≤ budget) (maxSlots : Nat)
    (ops : List (String × Option Image)) :
    memoryUsage (runGetOrLoad (init budget maxSlots) ops) ≤ budget := by
  obtain ⟨hWF, hmax⟩ := runGetOrLoad_WF (WF_init hb maxSlots) ops
  have hbud := hWF.budget_ok
  rw [hmax] at hbud
  exact hbud

/-- Witness for C1 at the source's default budget and two concrete loads. -/
theorem getOrLoad_budget_invariant_witness :
    (0 : Int) ≤ defaultMaxMemoryUsage ∧
    memoryUsage (runGetOrLoad (init defaultMaxMemoryUsage 32)
      [("a", some ⟨1, "a", 1, 1⟩), ("b", some ⟨2, "b", 2, 2⟩)]) ≤ defaultMaxMemoryUsage :=
  ⟨by decide, getOrLoad_budget_invariant defaultMaxMemoryUsage (by decide) 32 _⟩

/-- C2: with a budget of three units and one-unit entries, after loading
`"a"`, `"b"`, `"c"`, re-accessing `"a"`, and loading `"d"`, exactly one
eviction occurs and it removes `"b"` (the least recently accessed entry):
the resident set goes from `[a, b, c]` to `[a, c, d]`, never touching
`"a"` or `"c"`. -/
theorem lru_scenario_evicts_b :
    lruScenarioPair = (["a", "b", "c"], ["a", "c", "d"]) := by decide

/-- C3 (amended): in a `getOrLoad` that misses, finds a free slot and
inserts a new entry, eviction removes only previously resident entries, in
strict least-recently-used order (every evicted entry is strictly older
than every surviving old entry), until the total is at or below budget —
provided the new entry alone fits in the budget, in which case the new
entry itself always survives the operation. -/
theorem getOrLoad_eviction_spares_new_entry
    (tm : TextureManager) (h : WF tm) (url : String) (img : Image) (slot : Nat)
    (hmiss : mapGet tm.cache url = none)
    (hslot : findAvailableSlot tm = some slot)
    (hsz : (estimateImageSize img : Int) ≤ tm.maxMemoryUsage) :
    (∃ e ∈ (getTextureForUrl tm url (some img)).1.cache, e.url = url) ∧
    (∀ e ∈ (getTextureForUrl tm url (some img)).1.cache, e ∈ tm.cache ∨ e.url = url) ∧
    (∀ o ∈ tm.cache, o ∉ (getTextureForUrl tm url (some img)).1.cache →
        ∀ s ∈ tm.cache, s ∈ (getTextureForUrl tm url (some img)).1.cache →
          o.lastAccessed < s.lastAccessed) ∧
    (getTextureForUrl tm url (some img)).1.currentSize ≤ tm.maxMemoryUsage := by
  simp only [getTextureForUrl, hmiss, createTextureFromImage, hslot]
  obtain ⟨hlt, hfree⟩ := findAvailableSlot_spec hslot
  obtain ⟨cWF, cMax, cBud, cSub, cLru, cKeep⟩ :=
    createTextureAtSlot_spec h.core hmiss hlt hfree
  exact ⟨cKeep hsz, cSub, cLru, cBud⟩

/-- Witness for the amended C3 at a concrete manager and image. -/
theorem getOrLoad_eviction_spares_new_entry_witness :
    ((estimateImageSize ⟨1, "x", 1, 1⟩ : Int) ≤ 6156) ∧
    (∃ e ∈ (getTextureForUrl (init 6156 4) "x" (some ⟨1, "x", 1, 1⟩)).1.cache,
        e.url = "x") :=
  ⟨by decide,
    (getOrLoad_eviction_spares_new_entry (init 6156 4) (WF_init (by decide) 4)
      "x" ⟨1, "x", 1, 1⟩ 0 rfl rfl (by decide)).1⟩

/-- C3 counterexample: a `getOrLoad` whose new entry alone exceeds the
budget (image 50×50, size 12048, budget 6156) does insert the entry (the
call returns slot 0) and then evicts that very entry inside the same
operation, leaving the cache empty — refuting the claim that the newly
inserted entry is never itself evicted during the same operation. -/
theorem getOrLoad_oversized_entry_evicted_same_op :
    (getTextureForUrl (init 6156 4) "x" (some ⟨1, "x", 50, 50⟩)).2 = some 0 ∧
    (getTextureForUrl (init 6156 4) "x" (some ⟨1, "x", 50, 50⟩)).1.cache = [] := by
  decide

end TextureManager

/-! ## Lemmas: the remaining public operations -/

namespace TextureManager

theorem releaseTexture_const (tm : TextureManager) (slot : Nat) :
    (releaseTexture tm slot).maxMemoryUsage = tm.maxMemoryUsage ∧
    (releaseTexture tm slot).clock = tm.clock := by
  unfold releaseTexture
  split
  · cases hfind : findBySlot tm.cache slot <;> simp [hfind]
  · exact ⟨rfl, rfl⟩

theorem WF_releaseTexture {tm : TextureManager} (h : WF tm) (slot : Nat) :
    WF (releaseTexture tm slot) ∧
    (releaseTexture tm slot).maxMemoryUsage = tm.maxMemoryUsage ∧
    (releaseTexture tm slot).clock = tm.clock ∧
    (releaseTexture tm slot).textures.length = tm.textures.length := by
  by_cases hlt : slot < tm.textures.length
  · cases hfind : findBySlot tm.cache slot with
    | none =>
        have hnone : ∀ e ∈ tm.cache, e.slot ≠ slot := findBySlot_eq_none.1 hfind
        have heq : releaseTexture tm slot =
            { tm with textures := if tm.textures.getD slot false then tm.textures.set slot false
                                  else tm.textures } := by
          simp only [releaseTexture, if_pos hlt, hfind]
        rw [heq]
        refine ⟨⟨h.size_eq, h.budget_nonneg, h.budget_ok, ?_, ?_, h.slots_inj, h.urls_inj,
          h.clock_lt, h.times_inj⟩, rfl, rfl, ?_⟩
        · intro e he
          have := h.slots_lt e he
          split
          · rw [List.length_set]; exact this
          · exact this
        · intro e he
          split
          · rw [getD_set_ne (fun heq2 => hnone e he heq2.symm)]
            exact h.slots_occ e he
          · exact h.slots_occ e he
        · split
          · exact List.length_set _ _ _
          · rfl
    | some e =>
        obtain ⟨hmem, hslotE⟩ := findBySlot_mem hfind
        subst hslotE
        obtain ⟨hcache, hsize, hmax, hclock, hlen, htex⟩ :=
          releaseTexture_spec hlt h.core.slots_inj hmem
        have hnodup := cache_nodup h.core.urls_inj
        have hmemiff : ∀ y, y ∈ (releaseTexture tm e.slot).cache ↔ y ∈ tm.cache ∧ y ≠ e := by
          intro y
          rw [hcache]
          exact mem_removeFirstSlot_iff h.core.slots_inj hnodup hmem
        refine ⟨⟨?_, ?_, ?_, ?_, ?_, ?_, ?_, ?_, ?_⟩, hmax, hclock, hlen⟩
        · rw [hsize, hcache, sumSizes_removeFirstSlot (findBySlot_of_inj h.core.slots_inj hmem),
            h.size_eq]
        · rw [hmax]; exact h.budget_nonneg
        · rw [hsize, hmax]
          have h1 := h.budget_ok
          have h2 : (0 : Int) ≤ (e.size : Int) := Int.natCast_nonneg _
          omega
        · intro y hy
          have := h.slots_lt y ((hmemiff y).1 hy).1
          omega
        · intro y hy
          obtain ⟨hyin, hyne⟩ := (hmemiff y).1 hy
          have hslot : y.slot ≠ e.slot :=
            h.core.slots_inj.forall (fun _ _ hne => Ne.symm hne) hyin hmem hyne
          rw [htex y.slot hslot]
          exact h.slots_occ y hyin
        · rw [hcache]; exact pairwise_removeFirstSlot h.slots_inj
        · rw [hcache]; exact pairwise_removeFirstSlot h.urls_inj
        · intro y hy
          rw [hclock]
          exact h.clock_lt y ((hmemiff y).1 hy).1
        · rw [hcache]; exact pairwise_removeFirstSlot h.times_inj
  · have heq : releaseTexture tm slot = tm := by
      simp [releaseTexture, hlt]
    rw [heq]
    exact ⟨h, rfl, rfl, rfl⟩

theorem WF_createPlaceholder {tm : TextureManager} (h : WF tm) (slot : Nat) :
    WF (createPlaceholder tm slot).1 := by
  unfold createPlaceholder
  split
  · next hlt =>
      obtain ⟨hrel, hmax, hclock, hlen⟩ := WF_releaseTexture h slot
      refine ⟨hrel.size_eq, hrel.budget_nonneg, hrel.budget_ok, ?_, ?_, hrel.slots_inj,
        hrel.urls_inj, hrel.clock_lt, hrel.times_inj⟩
      · intro e he
        have := hrel.slots_lt e he
        show e.slot < ((releaseTexture tm slot).textures.set slot true).length
        rw [List.length_set]
        exact this
      · intro e he
        show ((releaseTexture tm slot).textures.set slot true).getD e.slot false = true
        by_cases hes : slot = e.slot
        · subst hes
          exact getD_set_self (by
            have := hrel.slots_lt e he
            exact this)
        · rw [getD_set_ne hes]
          exact hrel.slots_occ e he
  · exact h

theorem foldl_releaseTexture_const (l : List Nat) (tm : TextureManager) :
    (l.foldl (fun t i => releaseTexture t i) tm).maxMemoryUsage = tm.maxMemoryUsage := by
  induction l generalizing tm with
  | nil => rfl
  | cons i l ih =>
      rw [List.foldl_cons, ih, (releaseTexture_const tm i).1]

theorem WF_cleanup {tm : TextureManager} (h : WF tm) : WF (cleanup tm) := by
  have hmax : (cleanup tm).maxMemoryUsage = tm.maxMemoryUsage := by
    show ((List.range tm.textures.length).foldl (fun t i => releaseTexture t i)
      tm).maxMemoryUsage = tm.maxMemoryUsage
    exact foldl_releaseTexture_const _ tm
  refine ⟨rfl, ?_, ?_, ?_, ?_, ?_, ?_, ?_, ?_⟩
  · rw [hmax]; exact h.budget_nonneg
  · show (0 : Int) ≤ (cleanup tm).maxMemoryUsage
    rw [hmax]; exact h.budget_nonneg
  all_goals simp [cleanup]

end TextureManager

/-! ## Lemmas: getTextureForImage and operation traces -/

namespace TextureManager

theorem WFcore_touch_middle {tm : TextureManager} {l1 l2 : List CachedTexture}
    {c : CachedTexture} (h : WFcore tm) (hcache : tm.cache = l1 ++ c :: l2) :
    WFcore { tm with
      cache := l1 ++ { c with lastAccessed := tm.clock, accessCount := c.accessCount + 1 } :: l2
      clock := tm.clock + 1 } := by
  have hmemold : ∀ y, y ∈ l1 ∨ y ∈ l2 → y ∈ tm.cache := by
    intro y hy
    rw [hcache]
    rcases hy with hy | hy
    · exact List.mem_append_left _ hy
    · exact List.mem_append_right _ (List.mem_cons_of_mem _ hy)
  have hcm : c ∈ tm.cache := by
    rw [hcache]
    exact List.mem_append_right _ (List.mem_cons_self _ _)
  have hmemnew : ∀ y ∈ l1 ++ ({ c with lastAccessed := tm.clock, accessCount := c.accessCount + 1 } : CachedTexture) :: l2, y ∈ l1 ∨ y = ({ c with lastAccessed := tm.clock, accessCount := c.accessCount + 1 } : CachedTexture) ∨ y ∈ l2 := by
    intro y hy
    rcases List.mem_append.1 hy with hy | hy
    · exact Or.inl hy
    · rcases List.mem_cons.1 hy with hy | hy
      · exact Or.inr (Or.inl hy)
      · exact Or.inr (Or.inr hy)
  have hold2 : tm.cache.Pairwise (fun a b => a.slot ≠ b.slot) := h.slots_inj
  have hold3 : tm.cache.Pairwise (fun a b => a.url ≠ b.url) := h.urls_inj
  have hold4 : tm.cache.Pairwise (fun a b => a.lastAccessed ≠ b.lastAccessed) := h.times_inj
  rw [hcache] at hold2 hold3 hold4
  refine ⟨?_, h.budget_nonneg, ?_, ?_, ?_, ?_, ?_, ?_⟩
  · show tm.currentSize = sumSizes (l1 ++ _ :: l2)
    rw [sumSizes_append, sumSizes_cons]
    have := h.size_eq
    rw [hcache, sumSizes_append, sumSizes_cons] at this
    exact this
  · intro e he
    rcases hmemnew e he with he | he | he
    · exact h.slots_lt e (hmemold e (Or.inl he))
    · subst he; exact h.slots_lt c hcm
    · exact h.slots_lt e (hmemold e (Or.inr he))
  · intro e he
    rcases hmemnew e he with he | he | he
    · exact h.slots_occ e (hmemold e (Or.inl he))
    · subst he; exact h.slots_occ c hcm
    · exact h.slots_occ e (hmemold e (Or.inr he))
  · obtain ⟨p1, p2, p13⟩ := List.pairwise_append.1 hold2
    obtain ⟨pc2, p22⟩ := List.pairwise_cons.1 p2
    exact pairwise_middle_replace hold2
      (fun y hy => p13 y hy c (List.mem_cons_self _ _))
      (fun y hy => pc2 y hy)
  · obtain ⟨p1, p2, p13⟩ := List.pairwise_append.1 hold3
    obtain ⟨pc2, p22⟩ := List.pairwise_cons.1 p2
    exact pairwise_middle_replace hold3
      (fun y hy => p13 y hy c (List.mem_cons_self _ _))
      (fun y hy => pc2 y hy)
  · intro e he
    show e.lastAccessed < tm.clock + 1
    rcases hmemnew e he with he | he | he
    · have := h.clock_lt e (hmemold e (Or.inl he))
      omega
    · subst he
      show tm.clock < tm.clock + 1
      omega
    · have := h.clock_lt e (hmemold e (Or.inr he))
      omega
  · refine pairwise_middle_replace hold4 ?_ ?_
    · intro y hy
      have := h.clock_lt y (hmemold y (Or.inl hy))
      show y.lastAccessed ≠ tm.clock
      omega
    · intro y hy
      have := h.clock_lt y (hmemold y (Or.inr hy))
      show tm.clock ≠ y.lastAccessed
      omega

theorem touchImage_spec {tm : TextureManager} {imgId : Nat} {c : CachedTexture}
    (h : WFcore tm) (hhit : findByImage tm.cache imgId = some c) :
    WFcore { tm with
      cache := mapUpdateImage tm.cache imgId
        (fun e => { e with lastAccessed := tm.clock, accessCount := e.accessCount + 1 })
      clock := tm.clock + 1 } := by
  obtain ⟨l1, l2, hcache, hupd⟩ := mapUpdateImage_decomp hhit
    (fun e => { e with lastAccessed := tm.clock, accessCount := e.accessCount + 1 })
  rw [hupd]
  exact WFcore_touch_middle h hcache

theorem createTextureFromImage_WF {tm : TextureManager} {url : String} {img : Image}
    (h : WF tm) (hget : mapGet tm.cache url = none) :
    WF (createTextureFromImage tm url img).1 ∧
    (createTextureFromImage tm url img).1.maxMemoryUsage = tm.maxMemoryUsage := by
  cases hslot : findAvailableSlot tm with
  | some slot =>
      simp only [createTextureFromImage, hslot]
      obtain ⟨hlt, hfree⟩ := findAvailableSlot_spec hslot
      obtain ⟨cWF, cMax, cBud, _, _, _⟩ := createTextureAtSlot_spec h.core hget hlt hfree
      exact ⟨WF.of_core cWF (by rw [cMax]; exact cBud), cMax⟩
  | none =>
      simp only [createTextureFromImage, hslot]
      by_cases hne : tm.cache = []
      · have hev : evictLRU tm = tm := by
          simp [evictLRU, hne, findOldest]
        rw [hev, hslot]
        exact ⟨h, rfl⟩
      · obtain ⟨m, hmem, hmin, hcache, hsize, hmax, hclock, hWF1, hlen, hmemiff⟩ :=
          evictLRU_spec h.core hne
        have hWF1' : WF (evictLRU tm) := by
          refine WF.of_core hWF1 ?_
          rw [hsize, hmax]
          have h1 := h.budget_ok
          have h2 : (0 : Int) ≤ (m.size : Int) := Int.natCast_nonneg _
          omega
        cases hslot2 : findAvailableSlot (evictLRU tm) with
        | some slot2 =>
            simp only [hslot2]
            obtain ⟨hlt2, hfree2⟩ := findAvailableSlot_spec hslot2
            have hget1 : mapGet (evictLRU tm).cache url = none := by
              rw [mapGet_eq_none]
              intro e he
              exact (mapGet_eq_none.1 hget) e ((hmemiff e).1 he).1
            obtain ⟨cWF, cMax, cBud, _, _, _⟩ :=
              createTextureAtSlot_spec hWF1 hget1 hlt2 hfree2
            refine ⟨WF.of_core cWF (by rw [cMax]; exact cBud), ?_⟩
            rw [cMax, hmax]
        | none =>
            simp only [hslot2]
            exact ⟨hWF1', hmax⟩

theorem WF_getTextureForImage {tm : TextureManager} (h : WF tm) {img : Image}
    (hok : ((findByImage tm.cache img.id).isSome ||
      (mapGet tm.cache img.src).isNone) = true) :
    WF (getTextureForImage tm img).1 := by
  cases hhit : findByImage tm.cache img.id with
  | some c =>
      simp only [getTextureForImage, hhit]
      exact WF.of_core (touchImage_spec h.core hhit) h.budget_ok
  | none =>
      rw [hhit] at hok
      simp only [Option.isSome_none, Bool.false_or, Option.isNone_iff_eq_none] at hok
      simp only [getTextureForImage, hhit]
      exact (createTextureFromImage_WF h hok).1

theorem TMOp_apply_WF {tm : TextureManager} (h : WF tm) {op : TMOp}
    (hok : TMOp.ok tm op = true) : WF (TMOp.apply tm op) := by
  cases op with
  | loadUrl url load => exact (getTextureForUrl_spec url load h).1
  | loadImage img => exact WF_getTextureForImage h hok
  | placeholder slot => exact WF_createPlaceholder h slot
  | release slot => exact (WF_releaseTexture h slot).1
  | clean => exact WF_cleanup h

end TextureManager

/-! ## Claim C9 -/

namespace TextureManager

/-- C9 (amended): after any sequence of public `TextureManager` operations
in which no `getTextureForImage` call registers a fresh image object under
an already-cached URL, the reported `getStats().memoryUsage` equals the sum
of the `size` fields of the entries currently in the cache map. -/
theorem stats_memoryUsage_eq_sum (tm : TextureManager) (h : WF tm) (ops : List TMOp)
    (hok : runOkB tm ops = true) :
    memoryUsage (runTMOps tm ops) = sumSizes (runTMOps tm ops).cache := by
  suffices hWF : WF (runTMOps tm ops) from hWF.size_eq
  induction ops generalizing tm with
  | nil => exact h
  | cons op rest ih =>
      rw [runOkB, Bool.and_eq_true] at hok
      show WF (runTMOps (TMOp.apply tm op) rest)
      exact ih _ (TMOp_apply_WF h hok.1) hok.2

/-- Witness for the amended C9 on a concrete benign trace. -/
theorem stats_memoryUsage_eq_sum_witness :
    runOkB (init defaultMaxMemoryUsage 32)
      [TMOp.loadUrl "u" (some ⟨1, "u", 1, 1⟩), TMOp.loadImage ⟨1, "u", 1, 1⟩,
        TMOp.release 0, TMOp.clean] = true ∧
    memoryUsage (runTMOps (init defaultMaxMemoryUsage 32)
      [TMOp.loadUrl "u" (some ⟨1, "u", 1, 1⟩), TMOp.loadImage ⟨1, "u", 1, 1⟩,
        TMOp.release 0, TMOp.clean]) =
      sumSizes (runTMOps (init defaultMaxMemoryUsage 32)
        [TMOp.loadUrl "u" (some ⟨1, "u", 1, 1⟩), TMOp.loadImage ⟨1, "u", 1, 1⟩,
          TMOp.release 0, TMOp.clean]).cache :=
  ⟨by decide,
    stats_memoryUsage_eq_sum (init defaultMaxMemoryUsage 32) (WF_init (by decide) 32)
      _ (by decide)⟩

/-- C9 counterexample: loading url `"u"` (size 2052) and then calling
`getTextureForImage` with a different image object whose `src` is the same
url makes `cache.set` overwrite the old entry without its size ever being
subtracted: the counter reports 4104 while the entries in the map sum to
2052, refuting the claimed equality for arbitrary operation sequences. -/
theorem getTextureForImage_overwrite_drifts_counter :
    memoryUsage (runTMOps (init defaultMaxMemoryUsage 32)
      [TMOp.loadUrl "u" (some ⟨1, "u", 1, 1⟩), TMOp.loadImage ⟨2, "u", 1, 1⟩]) = 4104 ∧
    sumSizes (runTMOps (init defaultMaxMemoryUsage 32)
      [TMOp.loadUrl "u" (some ⟨1, "u", 1, 1⟩), TMOp.loadImage ⟨2, "u", 1, 1⟩]).cache
      = 2052 := by
  decide

end TextureManager

/-! ## Lemmas: the frame scheduler -/

namespace WebGLRenderer

theorem requestRender_spec (r : WebGLRenderer) :
    (requestRender r).needsRender = true ∧
    (requestRender r).draws = r.draws ∧
    (requestRender r).initialized = r.initialized ∧
    (requestRender r).passes = r.passes ∧
    (requestRender r).pendingCallbacks =
      (if r.needsRender then r.pendingCallbacks else r.pendingCallbacks + 1) := by
  by_cases h : r.needsRender <;> simp [requestRender, h]

theorem Mut_apply_dirty {r : WebGLRenderer} (h : r.needsRender = true) (m : Mut) :
    (Mut.apply r m).needsRender = true ∧
    (Mut.apply r m).pendingCallbacks = r.pendingCallbacks ∧
    (Mut.apply r m).draws = r.draws ∧
    (Mut.apply r m).initialized = r.initialized := by
  cases m with
  | reqFrame => simp [Mut.apply, requestRender, h]
  | mix v => simp [Mut.apply, setMixValue, requestRender, h]

theorem Mut_apply_clean {r : WebGLRenderer} (h : r.needsRender = false) (m : Mut) :
    (Mut.apply r m).needsRender = true ∧
    (Mut.apply r m).pendingCallbacks = r.pendingCallbacks + 1 ∧
    (Mut.apply r m).draws = r.draws ∧
    (Mut.apply r m).initialized = r.initialized := by
  cases m with
  | reqFrame => simp [Mut.apply, requestRender, h]
  | mix v => simp [Mut.apply, setMixValue, requestRender, h]

theorem runMuts_dirty {r : WebGLRenderer} (h : r.needsRender = true) (muts : List Mut) :
    (runMuts r muts).needsRender = true ∧
    (runMuts r muts).pendingCallbacks = r.pendingCallbacks ∧
    (runMuts r muts).draws = r.draws ∧
    (runMuts r muts).initialized = r.initialized := by
  induction muts generalizing r with
  | nil => exact ⟨h, rfl, rfl, rfl⟩
  | cons m rest ih =>
      obtain ⟨h1, h2, h3, h4⟩ := Mut_apply_dirty h m
      obtain ⟨g1, g2, g3, g4⟩ := ih h1
      refine ⟨g1, ?_, ?_, ?_⟩
      · show (runMuts (Mut.apply r m) rest).pendingCallbacks = r.pendingCallbacks
        rw [g2, h2]
      · show (runMuts (Mut.apply r m) rest).draws = r.draws
        rw [g3, h3]
      · show (runMuts (Mut.apply r m) rest).initialized = r.initialized
        rw [g4, h4]

theorem runCallback_draws {s : WebGLRenderer} (hinit : s.initialized = true)
    (hdirty : s.needsRender = true) :
    (runCallback s).draws = s.draws + 1 := by
  simp [runCallback, render, hinit, hdirty]

theorem tick_dirty {s : WebGLRenderer} (hinit : s.initialized = true)
    (hdirty : s.needsRender = true) (hpend : s.pendingCallbacks = 1) :
    (tick s).draws = s.draws + 1 := by
  show (runCallbacks s.pendingCallbacks s).draws = s.draws + 1
  rw [hpend]
  show (runCallbacks 0 (runCallback s)).draws = s.draws + 1
  show (runCallback s).draws = s.draws + 1
  exact runCallback_draws hinit hdirty

theorem tick_idle {s : WebGLRenderer} (hpend : s.pendingCallbacks = 0) :
    (tick s).draws = s.draws := by
  show (runCallbacks s.pendingCallbacks s).draws = s.draws
  rw [hpend]
  rfl

end WebGLRenderer

/-! ## Claims C4 and C5 -/

namespace WebGLRenderer

/-- C4: starting from a quiescent post-tick state (clean dirty flag, no
scheduled callback), any burst of mutations (`setMixValue` calls and bare
`requestRender`/`requestFrame` calls) between two scheduler ticks yields
exactly one executed render at the next tick when the burst is nonempty,
and none when it is empty — requests coalesce into one draw sequence, at
most one render runs per tick, and no render is skipped when a mutation
occurred. -/
theorem renders_coalesce_per_tick (r : WebGLRenderer) (hinit : r.initialized = true)
    (hclean : r.needsRender = false) (hpend : r.pendingCallbacks = 0) (muts : List Mut) :
    (tick (runMuts r muts)).draws = r.draws + (if muts = [] then 0 else 1) := by
  cases muts with
  | nil =>
      show (tick r).draws = r.draws + (if ([] : List Mut) = [] then 0 else 1)
      rw [tick_idle hpend]
      simp
  | cons m rest =>
      obtain ⟨h1, h2, h3, h4⟩ := Mut_apply_clean hclean m
      have hstep : runMuts r (m :: rest) = runMuts (Mut.apply r m) rest := rfl
      obtain ⟨g1, g2, g3, g4⟩ := runMuts_dirty h1 rest
      rw [hstep]
      have hdrawn : (tick (runMuts (Mut.apply r m) rest)).draws =
          (runMuts (Mut.apply r m) rest).draws + 1 := by
        refine tick_dirty ?_ g1 ?_
        · rw [g4, h4, hinit]
        · rw [g2, h2, hpend]
      rw [hdrawn, g3, h3]
      simp

/-- Witness for C4: three `setMixValue` calls in one inter-tick window
produce exactly one draw. -/
theorem renders_coalesce_per_tick_witness :
    (tick (runMuts
      { passes := [], textures := none, initialized := true, needsRender := false,
        pendingCallbacks := 0, draws := 0 }
      [Mut.mix 1, Mut.mix (1 / 2), Mut.mix 0])).draws =
      0 + (if ([Mut.mix 1, Mut.mix (1 / 2), Mut.mix 0] : List Mut) = [] then 0 else 1) :=
  renders_coalesce_per_tick _ rfl rfl rfl _

/-- C5 (amended): `updateTexture(index, url)` never rebinds any pass input
— `index` is ignored and the pass list is untouched in every case; on
successful resolution through the texture cache it sets the dirty flag; on
failed resolution the rejected promise is surfaced and the renderer state
is left exactly unchanged. -/
theorem updateTexture_no_rebind (r : WebGLRenderer) (idx : Nat) (url : String)
    (load : Option Image) (tm : TextureManager) (htm : r.textures = some tm)
    (hWF : TextureManager.WF tm) :
    (updateTexture r idx url load).1.passes = r.passes ∧
    ((updateTexture r idx url load).2 = true →
      (updateTexture r idx url load).1.needsRender = true) ∧
    ((updateTexture r idx url load).2 = false →
      (updateTexture r idx url load).1 = r) := by
  simp only [updateTexture, htm]
  cases hres : (TextureManager.getTextureForUrl tm url load).2 with
  | none =>
      simp only [hres]
      have hstate := TextureManager.getTextureForUrl_fail hWF hres
      refine ⟨trivial, ?_, ?_⟩
      · intro h
        cases h
      · intro _
        rw [hstate, ← htm]
  | some slot =>
      simp only [hres]
      obtain ⟨q1, q2, q3, q4, q5⟩ :=
        requestRender_spec { r with textures := some (TextureManager.getTextureForUrl tm url load).1 }
      exact ⟨q4, fun _ => q1, by intro h; cases h⟩

/-- Witness for the amended C5 at a concrete renderer and a successful
load. -/
theorem updateTexture_no_rebind_witness :
    ({ passes := [{ uniforms := UniformManager.make [], sources := [99] }],
        textures := some (TextureManager.init TextureManager.defaultMaxMemoryUsage 32),
        initialized := true, needsRender := false, pendingCallbacks := 0,
        draws := 0 } : WebGLRenderer).textures =
      some (TextureManager.init TextureManager.defaultMaxMemoryUsage 32) ∧
    (updateTexture
      { passes := [{ uniforms := UniformManager.make [], sources := [99] }],
        textures := some (TextureManager.init TextureManager.defaultMaxMemoryUsage 32),
        initialized := true, needsRender := false, pendingCallbacks := 0, draws := 0 }
      0 "u" (some ⟨5, "u", 1, 1⟩)).1.passes =
      [{ uniforms := UniformManager.make [], sources := [99] }] :=
  ⟨rfl,
    (updateTexture_no_rebind
      { passes := [{ uniforms := UniformManager.make [], sources := [99] }],
        textures := some (TextureManager.init TextureManager.defaultMaxMemoryUsage 32),
        initialized := true, needsRender := false, pendingCallbacks := 0, draws := 0 }
      0 "u" (some ⟨5, "u", 1, 1⟩)
      (TextureManager.init TextureManager.defaultMaxMemoryUsage 32) rfl
      (TextureManager.WF_init (by decide) 32)).1⟩

/-- C5 counterexample: a successful `updateTexture(0, "u")` call resolves
and caches the texture (the promise resolves) yet leaves the pass list —
including the input binding `99` of pass 0 at the index it names — exactly
as it was: the source never rebinds the pass input to the resolved
texture, refuting the claimed rebinding. -/
theorem updateTexture_leaves_binding_stale :
    (updateTexture
      { passes := [{ uniforms := UniformManager.make [], sources := [99] }],
        textures := some (TextureManager.init TextureManager.defaultMaxMemoryUsage 32),
        initialized := true, needsRender := false, pendingCallbacks := 0, draws := 0 }
      0 "u" (some ⟨5, "u", 1, 1⟩)).2 = true ∧
    (updateTexture
      { passes := [{ uniforms := UniformManager.make [], sources := [99] }],
        textures := some (TextureManager.init TextureManager.defaultMaxMemoryUsage 32),
        initialized := true, needsRender := false, pendingCallbacks := 0, draws := 0 }
      0 "u" (some ⟨5, "u", 1, 1⟩)).1.passes =
      [{ uniforms := UniformManager.make [], sources := [99] }] := by
  decide

end WebGLRenderer

/-! ## Lemmas: uniform manager -/

theorem gpuGet_gpuSet_self (g : List (Nat × UniformValue)) (l : Nat) (v : UniformValue) :
    gpuGet (gpuSet g l v) l = some v := by
  induction g with
  | nil => simp [gpuSet, gpuGet, List.find?]
  | cons p ps ih =>
      by_cases h : p.1 = l
      · have hb : (p.1 == l) = true := by simpa using h
        simp [gpuSet, gpuGet, List.find?, hb]
      · have hb : (p.1 == l) = false := by simpa using h
        simp only [gpuSet, hb, Bool.false_eq_true, if_false]
        simp only [gpuGet, List.find?, hb]
        exact ih

theorem alistGet_append_has {α : Type} (l : List (String × α)) (n k : String) (x : α) :
    (alistGet (l ++ [(n, x)]) k).isSome = ((alistGet l k).isSome || (k == n)) := by
  induction l with
  | nil =>
      by_cases h : n = k
      · have hb : (n == k) = true := by simpa using h
        simp [alistGet, List.find?, hb, h]
      · have hb : (n == k) = false := by simpa using h
        have hkn : ¬k = n := fun hk => h hk.symm
        simp [alistGet, List.find?, hb, hkn]
  | cons p ps ih =>
      by_cases h : p.1 = k
      · have hb : (p.1 == k) = true := by simpa using h
        simp [alistGet, List.find?, hb]
      · have hb : (p.1 == k) = false := by simpa using h
        simp only [List.cons_append, alistGet, List.find?, hb] at ih ⊢
        exact ih

namespace UniformManager

theorem getLocation_locations (um : UniformManager) (n : String) :
    (um.getLocation n).1.locations = um.locations ∨
    ((alistGet um.locations n = none) ∧
      (um.getLocation n).1.locations = um.locations ++ [(n, alistGet um.prog n)]) := by
  cases h : alistGet um.locations n with
  | some v => simp [getLocation, h]
  | none => simp [getLocation, h]

theorem has_getLocation (um : UniformManager) (n k : String) :
    (um.getLocation n).1.has k = (um.has k || (k == n)) := by
  cases h : alistGet um.locations n with
  | some v =>
      simp only [getLocation, h]
      by_cases hk : k = n
      · subst hk
        have hk2 : um.has k = true := by simp [has, h]
        simp [hk2]
      · have hb : (k == n) = false := by simpa using hk
        simp [hb]
  | none =>
      simp only [getLocation, h]
      show (alistGet (um.locations ++ [(n, alistGet um.prog n)]) k).isSome =
        (um.has k || (k == n))
      rw [alistGet_append_has]
      rfl

theorem has_setFloat (um : UniformManager) (n k : String) (v : Rat) :
    (um.setFloat n v).has k = (um.has k || (k == n)) := by
  rw [← has_getLocation um n k]
  simp only [setFloat]
  cases h2 : (um.getLocation n).2 <;> simp [has]

theorem has_setVec2 (um : UniformManager) (n k : String) (x y : Rat) :
    (um.setVec2 n x y).has k = (um.has k || (k == n)) := by
  rw [← has_getLocation um n k]
  simp only [setVec2]
  cases h2 : (um.getLocation n).2 <;> simp [has]

theorem has_setInt (um : UniformManager) (n k : String) (v : Int) :
    (um.setInt n v).has k = (um.has k || (k == n)) := by
  rw [← has_getLocation um n k]
  simp only [setInt]
  cases h2 : (um.getLocation n).2 <;> simp [has]

theorem setFloat_cached {um : UniformManager} {name : String} {l : Nat}
    (hloc : alistGet um.locations name = some (some l)) (v : Rat) :
    (um.setFloat name v).gpu = gpuSet um.gpu l (UniformValue.float v) := by
  simp [setFloat, getLocation, hloc]

end UniformManager

theorem UOp_apply_has (um : UniformManager) (op : UOp) (name : String) :
    (UOp.apply um op).has name = (um.has name || (name == op.name)) := by
  cases op with
  | getLoc n => exact UniformManager.has_getLocation um n name
  | setF n v => exact UniformManager.has_setFloat um n name v
  | setV2 n x y => exact UniformManager.has_setVec2 um n name x y
  | setI n v => exact UniformManager.has_setInt um n name v

theorem runUOps_has_iff (um : UniformManager) (ops : List UOp) (name : String) :
    (runUOps um ops).has name = true ↔
      (um.has name = true ∨ name ∈ ops.map UOp.name) := by
  induction ops generalizing um with
  | nil => simp [runUOps]
  | cons op rest ih =>
      show (runUOps (UOp.apply um op) rest).has name = true ↔ _
      rw [ih, UOp_apply_has]
      simp only [Bool.or_eq_true, beq_iff_eq, List.map_cons, List.mem_cons]
      tauto

/-! ## Claims C10 and C8 -/

/-- C10: `UniformManager.has(name)` is true exactly when some earlier
operation (a `getLocation` or any `set*` call) looked `name` up on that
manager — for every program table, so the answer is independent of whether
the uniform exists in the linked program: a nonexistent uniform that was
set reports `true` (its cached location being null), and a program uniform
never touched reports `false`. -/
theorem has_iff_touched (prog : List (String × Nat)) (ops : List UOp) (name : String) :
    ((runUOps (UniformManager.make prog) ops).has name = true) ↔
      name ∈ ops.map UOp.name := by
  rw [runUOps_has_iff]
  simp [UniformManager.make, UniformManager.has, alistGet, List.find?]

/-- Witness for C10: on a program containing only `real`, setting the
nonexistent `ghost` makes `has "ghost"` true while `has "real"` stays
false. -/
theorem has_iff_touched_witness :
    ((runUOps (UniformManager.make [("real", 0)]) [UOp.setF "ghost" 1]).has "ghost"
      = true) ∧
    ((runUOps (UniformManager.make [("real", 0)]) [UOp.setF "ghost" 1]).has "real"
      = false) := by
  constructor
  · exact (has_iff_touched [("real", 0)] [UOp.setF "ghost" 1] "ghost").2 (by decide)
  · by_cases h : (runUOps (UniformManager.make [("real", 0)])
      [UOp.setF "ghost" 1]).has "real" = true
    · exact absurd ((has_iff_touched [("real", 0)] [UOp.setF "ghost" 1] "real").1 h)
        (by decide)
    · simpa using h

namespace WebGLRenderer

/-- C8 (amended): `setMixValue(v)` writes `v` itself — with no clamping to
`[0,1]` — to the mix uniform of every pass whose uniform map contains
`u_mixRatio` (at its cached non-null location), leaves passes without that
uniform untouched, and sets the dirty flag. -/
theorem setMixValue_writes_unclamped (r : WebGLRenderer) (v : Rat) :
    (setMixValue r v).needsRender = true ∧
    List.Forall₂ (fun p q =>
      (p.uniforms.has "u_mixRatio" = false → q = p) ∧
      (∀ l, alistGet p.uniforms.locations "u_mixRatio" = some (some l) →
        gpuGet q.uniforms.gpu l = some (UniformValue.float v)))
      r.passes (setMixValue r v).passes := by
  constructor
  · exact (requestRender_spec _).1
  · have hpasses : (setMixValue r v).passes = r.passes.map (fun p =>
        if p.uniforms.has "u_mixRatio" then
          { p with uniforms := p.uniforms.setFloat "u_mixRatio" v }
        else p) := by
      simp only [setMixValue, requestRender]
      split
      · rfl
      · rfl
    rw [hpasses, List.forall₂_map_right_iff, List.forall₂_same]
    intro p _
    constructor
    · intro hno
      rw [hno]
      simp
    · intro l hloc
      have hhas : p.uniforms.has "u_mixRatio" = true := by
        simp [UniformManager.has, hloc]
      rw [if_pos hhas]
      show gpuGet (p.uniforms.setFloat "u_mixRatio" v).gpu l = _
      rw [UniformManager.setFloat_cached hloc v]
      exact gpuGet_gpuSet_self _ _ _

/-- Witness for the amended C8 at a concrete pass and `v = 2`. -/
theorem setMixValue_writes_unclamped_witness :
    (setMixValue mixProbeRenderer 2).needsRender = true ∧
    List.Forall₂ (fun p q =>
      (p.uniforms.has "u_mixRatio" = false → q = p) ∧
      (∀ l, alistGet p.uniforms.locations "u_mixRatio" = some (some l) →
        gpuGet q.uniforms.gpu l = some (UniformValue.float 2)))
      mixProbeRenderer.passes (setMixValue mixProbeRenderer 2).passes :=
  setMixValue_writes_unclamped mixProbeRenderer 2

/-- C8 counterexample: `setMixValue(2)` writes the raw value `2` to the
mix uniform, not the clamp `specClamp01 2 = 1` the claim requires — the
source performs no clamping. -/
theorem setMixValue_does_not_clamp :
    (setMixValue mixProbeRenderer 2).passes =
      [{ uniforms :=
          { prog := [("u_mixRatio", 7)]
            locations := [("u_mixRatio", some 7)]
            gpu := [(7, UniformValue.float 2)] }
         sources := [] }] ∧
    specClamp01 2 = 1 ∧ (2 : Rat) ≠ specClamp01 2 := by
  refine ⟨by decide, by decide, by decide⟩

end WebGLRenderer

/-! ## Claims C6 and C7 -/

/-- C6 (amended): constructing an `FBO` whose framebuffer does not report
complete — in particular with width or height `0` — raises no error at
all: the constructor `console.warn`s once and returns the object, leaving
both the framebuffer and the texture it allocated alive; on a complete
framebuffer no warning is emitted.  (The constructor is a total function:
there is no failure path.) -/
theorem fbo_incomplete_warns_and_retains (gl : GLState) (w h : Int) :
    (FBO.create gl w h).1.framebuffersAlive = gl.framebuffersAlive + 1 ∧
    (FBO.create gl w h).1.texturesAlive = gl.texturesAlive + 1 ∧
    (framebufferComplete w h = false → (FBO.create gl w h).1.warnings = gl.warnings + 1) ∧
    (framebufferComplete w h = true → (FBO.create gl w h).1.warnings = gl.warnings) ∧
    (FBO.create gl w h).2 = { width := w, height := h } := by
  by_cases hc : framebufferComplete w h = true
  · simp [FBO.create, hc]
  · have hc' : framebufferComplete w h = false := by simpa using hc
    simp [FBO.create, hc']

/-- Witness for the amended C6: a zero-width construction at an empty GL
heap warns once and keeps both resources. -/
theorem fbo_incomplete_warns_and_retains_witness :
    framebufferComplete 0 64 = false ∧
    (FBO.create { framebuffersAlive := 0, texturesAlive := 0, warnings := 0 } 0 64).1.warnings
      = 0 + 1 :=
  ⟨by decide,
    (fbo_incomplete_warns_and_retains
      { framebuffersAlive := 0, texturesAlive := 0, warnings := 0 } 0 64).2.2.1 (by decide)⟩

/-- C6 counterexample: constructing a render target with width `0` does
not raise `FramebufferIncompleteError` and does not release the GPU
resources — the constructor returns normally with the framebuffer and
texture still allocated (resource counts 1 and 1) and only a console
warning recorded, refuting the claimed fatal, allocation-free failure. -/
theorem fbo_zero_width_no_error :
    FBO.create { framebuffersAlive := 0, texturesAlive := 0, warnings := 0 } 0 64 =
      ({ framebuffersAlive := 1, texturesAlive := 1, warnings := 1 },
        { width := 0, height := 64 }) := by
  decide

/-- C7 (amended): `createProgram`'s cleanup on failure is partial.  A
vertex-stage compile failure deletes that shader and leaks nothing; a
fragment-stage compile failure deletes the fragment shader but leaks the
already-compiled vertex shader; a link failure deletes the program but
leaks both shader objects; only the success path deletes both shaders. -/
theorem createProgram_cleanup (env : GLSLEnv) (gl : GLObjs) (vs fs : String) :
    (env.compiles Stage.vertex vs = false →
      createProgram env gl vs fs = (gl, false)) ∧
    (env.compiles Stage.vertex vs = true → env.compiles Stage.fragment fs = false →
      createProgram env gl vs fs =
        ({ gl with shadersAlive := gl.shadersAlive + 1 }, false)) ∧
    (env.compiles Stage.vertex vs = true → env.compiles Stage.fragment fs = true →
      env.links vs fs = false →
      createProgram env gl vs fs =
        ({ gl with shadersAlive := gl.shadersAlive + 2 }, false)) ∧
    (env.compiles Stage.vertex vs = true → env.compiles Stage.fragment fs = true →
      env.links vs fs = true →
      createProgram env gl vs fs =
        ({ gl with programsAlive := gl.programsAlive + 1 }, true)) := by
  refine ⟨?_, ?_, ?_, ?_⟩
  · intro hv
    simp [createProgram, compileShader, hv]
  · intro hv hf
    simp [createProgram, compileShader, hv, hf]
  · intro hv hf hl
    simp [createProgram, compileShader, hv, hf, hl]
  · intro hv hf hl
    simp [createProgram, compileShader, hv, hf, hl]

/-- Witness for the amended C7: with both stages compiling and linking
failing, the program object is released but both shader objects stay
alive. -/
theorem createProgram_cleanup_witness :
    createProgram
      { compiles := fun _ _ => true, links := fun _ _ => false }
      { shadersAlive := 0, programsAlive := 0 } "v" "f" =
      ({ shadersAlive := 0 + 2, programsAlive := 0 }, false) :=
  (createProgram_cleanup
    { compiles := fun _ _ => true, links := fun _ _ => false }
    { shadersAlive := 0, programsAlive := 0 } "v" "f").2.2.1 rfl rfl rfl

/-- C7 counterexample: for a pair whose vertex stage compiles and whose
fragment stage fails, `createProgram` surfaces the error while the
compiled vertex shader object is still allocated (live-shader count 1,
not 0) — a failed compile leaks a GPU object, refuting the no-leak
claim. -/
theorem fragment_fail_leaks_vertex_shader :
    createProgram
      { compiles := fun st _ => match st with
          | Stage.vertex => true
          | Stage.fragment => false,
        links := fun _ _ => true }
      { shadersAlive := 0, programsAlive := 0 } "v" "f" =
      ({ shadersAlive := 1, programsAlive := 0 }, false) := by
  rfl
